import Mathlib

/-!
Verification of the QRFS core against its natural-language specification.

The definitions below are a shallow embedding of the Rust sources under
src/qrfs/crates/.  Pure functions become Lean functions, the mutable
filesystem runtime becomes explicit state passing, machine integers become
Nat (all values involved stay far below 2^64; where representation matters,
e.g. the packed bitmap bytes, arithmetic is done modulo byte width exactly as
the source does), and fallible code returns Except/Option.  The AES-GCM
crypto engine and the QR image codec are abstracted as faithful round-trips:
a stored block is either absent (read back as a zero-filled block, as
device.rs does) or holds the authenticated envelope of the plaintext that
was written, which decrypts back to that plaintext.
-/

set_option maxHeartbeats 1000000

namespace QRFS

/-! ## Constants (src/qrfs/crates/qrfs_lib/src/types.rs) -/

def BLOCK_SIZE : Nat := 1024

def QRFS_MAGIC : Nat := 0x51524653

def MAX_FILENAME_LEN : Nat := 64

def DIRECT_POINTERS : Nat := 12

/-- The fixed chunk size used by `write_inode_data` (fs.rs, `CHUNK_SIZE`). -/
def CHUNK_SIZE : Nat := 900

/-! errno values from libc used by fs.rs -/

def EIO : Int := 5
def ENOENT : Int := 2
def ENOSPC : Int := 28
def ENOTDIR : Int := 20

/-! ## Allocation bitmap (src/qrfs/crates/qrfs_lib/src/bitmap.rs)

`bits` is the `Vec<u8>` of packed bytes, `size` the number of tracked blocks. -/

structure Bitmap where
  bits : List Nat
  size : Nat
deriving Repr, DecidableEq

/-- `Bitmap::new(total_blocks)`: all blocks free, `(total_blocks + 7) / 8` bytes. -/
def Bitmap.new (total_blocks : Nat) : Bitmap :=
  { bits := List.replicate ((total_blocks + 7) / 8) 0, size := total_blocks }

/-- `Bitmap::get(index)`: false for `index >= size`, else bit `index % 8` of
byte `index / 8`. -/
def Bitmap.get (b : Bitmap) (index : Nat) : Bool :=
  if index ≥ b.size then false
  else Nat.testBit (b.bits.getD (index / 8) 0) (index % 8)

/-- `Bitmap::set(index, value)`: no-op for `index >= size`; otherwise ORs in
`1 << bit_idx` resp. ANDs with `!(1 << bit_idx)` (on a u8, the complement is
`255 ^^^ (1 <<< bit_idx)`). -/
def Bitmap.set (b : Bitmap) (index : Nat) (value : Bool) : Bitmap :=
  if index ≥ b.size then b
  else
    let byte_idx := index / 8
    let bit_idx := index % 8
    let oldByte := b.bits.getD byte_idx 0
    let newByte := if value then oldByte ||| (1 <<< bit_idx)
                   else oldByte &&& (255 ^^^ (1 <<< bit_idx))
    { b with bits := b.bits.set byte_idx newByte }

/-- Structural well-formedness of a bitmap: the byte vector is long enough for
`size` bits (as guaranteed by `Bitmap::new` and preserved by every operation). -/
def Bitmap.WF (b : Bitmap) : Prop := b.size ≤ 8 * b.bits.length

instance (b : Bitmap) : Decidable b.WF := by unfold Bitmap.WF; infer_instance

/-- The scan of `Bitmap::allocate`'s `for i in 0..self.size` loop.  The fuel
argument makes the recursion structural; `allocate` supplies fuel `size`,
which is exactly the iteration count of the source loop. -/
def Bitmap.allocScanGo (b : Bitmap) : Nat → Nat → Option Nat
  | 0, _ => none
  | fuel + 1, i =>
    if i < b.size then
      (if b.get i then b.allocScanGo fuel (i + 1) else some i)
    else none

/-- `Bitmap::allocate()`: first-fit search for a clear bit; marks it and
returns its index, or returns `None` when the disk is full.  The source
mutates `self`; here the updated bitmap is returned alongside the result. -/
def Bitmap.allocate (b : Bitmap) : Option Nat × Bitmap :=
  match b.allocScanGo b.size 0 with
  | some i => (some i, b.set i true)
  | none => (none, b)

theorem Bitmap.size_set (b : Bitmap) (i : Nat) (v : Bool) : (b.set i v).size = b.size := by
  unfold Bitmap.set
  split <;> rfl

theorem Bitmap.length_bits_set (b : Bitmap) (i : Nat) (v : Bool) :
    (b.set i v).bits.length = b.bits.length := by
  unfold Bitmap.set
  split
  · rfl
  · simp

theorem Bitmap.WF_set (b : Bitmap) (i : Nat) (v : Bool) (h : b.WF) : (b.set i v).WF := by
  unfold Bitmap.WF at *
  rw [Bitmap.size_set, Bitmap.length_bits_set]
  exact h

private theorem getD_list_set (l : List Nat) (m n : Nat) (x : Nat) :
    (l.set m x).getD n 0 = if m = n ∧ m < l.length then x else l.getD n 0 := by
  rcases Decidable.em (m = n) with rfl | hne
  · by_cases hm : m < l.length
    · simp [List.getD, List.getElem?_set_self hm, hm]
    · simp only [List.getD]
      rw [List.set_eq_of_length_le (by omega)]
      simp [hm]
  · simp [List.getD, List.getElem?_set_ne hne, hne]

/-- The central bit-twiddling fact: `set` changes exactly the addressed bit (for
a well-formed bitmap). -/
private theorem testBit_255 (k : Nat) (h : k < 8) : Nat.testBit 255 k = true := by
  have h255 : (255 : Nat) = 2 ^ 8 - 1 := by norm_num
  rw [h255, Nat.testBit_two_pow_sub_one]
  simpa using h

theorem Bitmap.get_set (b : Bitmap) (hwf : b.WF) (i j : Nat) (v : Bool) :
    (b.set i v).get j = if j = i ∧ i < b.size then v else b.get j := by
  unfold Bitmap.WF at hwf
  by_cases hi : i ≥ b.size
  · unfold Bitmap.set
    rw [if_pos hi]
    have hcond : ¬(j = i ∧ i < b.size) := by omega
    rw [if_neg hcond]
  · have hibyte : i / 8 < b.bits.length := by omega
    set nb := (if v = true then (b.bits.getD (i / 8) 0) ||| (1 <<< (i % 8))
               else (b.bits.getD (i / 8) 0) &&& (255 ^^^ (1 <<< (i % 8)))) with hnb
    have hset : b.set i v = ⟨b.bits.set (i / 8) nb, b.size⟩ := by
      unfold Bitmap.set
      rw [if_neg hi]
    rw [hset]
    show (if j ≥ b.size then false
          else Nat.testBit ((b.bits.set (i / 8) nb).getD (j / 8) 0) (j % 8)) =
        if j = i ∧ i < b.size then v else b.get j
    by_cases hj : j ≥ b.size
    · rw [if_pos hj]
      have hcond : ¬(j = i ∧ i < b.size) := by omega
      rw [if_neg hcond]
      unfold Bitmap.get
      rw [if_pos hj]
    · rw [if_neg hj, getD_list_set]
      by_cases hbyte : i / 8 = j / 8
      · rw [if_pos ⟨hbyte, hibyte⟩]
        by_cases hij : j = i
        · subst hij
          rw [if_pos ⟨rfl, by omega⟩, hnb]
          cases v with
          | true =>
            rw [if_pos rfl, Nat.testBit_or, Nat.one_shiftLeft, Nat.testBit_two_pow_self]
            simp
          | false =>
            rw [if_neg (by simp), Nat.testBit_and, Nat.testBit_xor, Nat.one_shiftLeft,
              Nat.testBit_two_pow_self, testBit_255 (j % 8) (Nat.mod_lt j (by norm_num))]
            simp
        · have hcond : ¬(j = i ∧ i < b.size) := fun h => hij h.1
          rw [if_neg hcond]
          have hbits : i % 8 ≠ j % 8 := by omega
          have hget : b.get j = Nat.testBit (b.bits.getD (j / 8) 0) (j % 8) := by
            unfold Bitmap.get
            rw [if_neg hj]
          rw [hget, ← hbyte, hnb]
          cases v with
          | true =>
            rw [if_pos rfl, Nat.testBit_or, Nat.one_shiftLeft,
              Nat.testBit_two_pow_of_ne hbits]
            simp
          | false =>
            rw [if_neg (by simp), Nat.testBit_and, Nat.testBit_xor, Nat.one_shiftLeft,
              Nat.testBit_two_pow_of_ne hbits,
              testBit_255 (j % 8) (Nat.mod_lt j (by norm_num))]
            simp
      · rw [if_neg (fun h => hbyte h.1)]
        have hij : ¬(j = i) := fun h => hbyte (by rw [h])
        rw [if_neg (fun h => hij h.1)]
        unfold Bitmap.get
        rw [if_neg hj]

/-- Bits outside the addressed index are untouched even without well-formedness
(the byte write can only land in the addressed byte). -/
theorem Bitmap.get_set_ne (b : Bitmap) (hwf : b.WF) (i j : Nat) (v : Bool) (h : j ≠ i) :
    (b.set i v).get j = b.get j := by
  rw [Bitmap.get_set b hwf i j v, if_neg (by tauto)]

theorem Bitmap.get_set_self (b : Bitmap) (hwf : b.WF) (i : Nat) (v : Bool) (h : i < b.size) :
    (b.set i v).get i = v := by
  rw [Bitmap.get_set b hwf i i v, if_pos ⟨rfl, h⟩]

theorem Bitmap.allocScanGo_none_iff (b : Bitmap) :
    ∀ fuel s, b.size ≤ s + fuel →
      (b.allocScanGo fuel s = none ↔ ∀ j, s ≤ j → j < b.size → b.get j = true) := by
  intro fuel
  induction fuel with
  | zero =>
    intro s h
    simp only [Bitmap.allocScanGo, true_iff]
    intro j h1 h2
    omega
  | succ n ih =>
    intro s h
    simp only [Bitmap.allocScanGo]
    by_cases hs : s < b.size
    · rw [if_pos hs]
      by_cases hg : b.get s
      · rw [if_pos hg, ih (s + 1) (by omega)]
        constructor
        · intro hall j h1 h2
          rcases Nat.eq_or_lt_of_le h1 with rfl | h1'
          · exact hg
          · exact hall j h1' h2
        · intro hall j h1 h2
          exact hall j (by omega) h2
      · rw [if_neg hg]
        simp only [reduceCtorEq, false_iff, not_forall]
        exact ⟨s, le_rfl, hs, by simpa using hg⟩
    · rw [if_neg hs]
      simp only [true_iff]
      intro j h1 h2
      omega

theorem Bitmap.allocScanGo_some_iff (b : Bitmap) :
    ∀ fuel s i, b.size ≤ s + fuel →
      (b.allocScanGo fuel s = some i ↔
        s ≤ i ∧ i < b.size ∧ b.get i = false ∧ ∀ j, s ≤ j → j < i → b.get j = true) := by
  intro fuel
  induction fuel with
  | zero =>
    intro s i h
    simp only [Bitmap.allocScanGo, reduceCtorEq, false_iff, not_and]
    intro h1 h2
    omega
  | succ n ih =>
    intro s i h
    simp only [Bitmap.allocScanGo]
    by_cases hs : s < b.size
    · rw [if_pos hs]
      by_cases hg : b.get s
      · rw [if_pos hg, ih (s + 1) i (by omega)]
        constructor
        · rintro ⟨h1, h2, h3, h4⟩
          refine ⟨by omega, h2, h3, fun j hj1 hj2 => ?_⟩
          rcases Nat.eq_or_lt_of_le hj1 with rfl | hj1'
          · exact hg
          · exact h4 j hj1' hj2
        · rintro ⟨h1, h2, h3, h4⟩
          have hsi : s ≠ i := by
            rintro rfl
            rw [hg] at h3
            exact absurd h3 (by simp)
          exact ⟨by omega, h2, h3, fun j hj1 hj2 => h4 j (by omega) hj2⟩
      · rw [if_neg hg]
        constructor
        · rintro ⟨rfl⟩
          exact ⟨le_rfl, hs, by simpa using hg, fun j h1 h2 => by omega⟩
        · rintro ⟨h1, h2, h3, h4⟩
          rcases Nat.eq_or_lt_of_le h1 with rfl | h1'
          · rfl
          · exact absurd (h4 s le_rfl h1') (by simpa using hg)
    · rw [if_neg hs]
      simp only [reduceCtorEq, false_iff, not_and]
      intro h1 h2
      omega

/-- C7 (claim): `allocate` is first-fit: when it returns `Some i`, `i` is the
least clear index, that bit becomes set, and it returns `None` exactly when
every bit in `[0, size)` is set. -/
theorem C7_allocate_first_fit (b : Bitmap) (hwf : b.WF) :
    (∀ i, (b.allocate).1 = some i →
        i < b.size ∧ b.get i = false ∧ (∀ j, j < i → b.get j = true) ∧
        (b.allocate).2 = b.set i true ∧ (b.allocate).2.get i = true) ∧
    ((b.allocate).1 = none ↔ ∀ i, i < b.size → b.get i = true) := by
  constructor
  · intro i hi
    have hscan : b.allocScanGo b.size 0 = some i := by
      rcases h : b.allocScanGo b.size 0 with _ | k
      · unfold Bitmap.allocate at hi
        rw [h] at hi
        exact absurd hi (by simp)
      · unfold Bitmap.allocate at hi
        rw [h] at hi
        simp only [Option.some.injEq] at hi
        rw [hi]
    obtain ⟨-, h2, h3, h4⟩ := (b.allocScanGo_some_iff b.size 0 i (by omega)).1 hscan
    have halloc : b.allocate = (some i, b.set i true) := by
      unfold Bitmap.allocate
      rw [hscan]
    rw [halloc]
    exact ⟨h2, h3, fun j hj => h4 j (Nat.zero_le j) hj, rfl,
      Bitmap.get_set_self b hwf i true h2⟩
  · rcases hscan : b.allocScanGo b.size 0 with _ | k
    · have halloc : b.allocate = (none, b) := by
        unfold Bitmap.allocate
        rw [hscan]
      rw [halloc]
      simp only [true_iff]
      have := (b.allocScanGo_none_iff b.size 0 (by omega)).1 hscan
      exact fun i hi => this i (Nat.zero_le i) hi
    · have halloc : b.allocate = (some k, b.set k true) := by
        unfold Bitmap.allocate
        rw [hscan]
      rw [halloc]
      simp only [reduceCtorEq, false_iff, not_forall]
      have := (b.allocScanGo_some_iff b.size 0 k (by omega)).1 hscan
      exact ⟨k, this.2.1, by simp [this.2.2.1]⟩

/-- Witness for C7 at a concrete bitmap: byte 0b101, 8 tracked bits; allocate
returns index 1 and sets it. -/
theorem C7_allocate_first_fit_witness :
    (Bitmap.allocate ⟨[5], 8⟩).2 = Bitmap.set ⟨[5], 8⟩ 1 true :=
  ((C7_allocate_first_fit ⟨[5], 8⟩ (by decide)).1 1 (by decide)).2.2.2.1

/-! ## Metadata types (src/qrfs/crates/qrfs_lib/src/types.rs) -/

inductive FType where
  | file
  | directory
deriving Repr, DecidableEq

structure SuperBlock where
  magic : Nat
  total_blocks : Nat
  total_inodes : Nat
  free_blocks_count : Nat
  inode_table_start : Nat
  bitmap_start : Nat
  root_dir_inode : Nat
  uuid : List Nat
deriving Repr, DecidableEq

/-- An inode.  Timestamps are modelled as abstract Nat instants; `now`
parameters stand for `SystemTime::now()`. -/
structure Inode where
  mode : Nat
  size : Nat
  file_type : FType
  created_at : Nat
  modified_at : Nat
  direct_blocks : List Nat
  indirect_block : Nat
deriving Repr, DecidableEq

/-- `Inode::new(file_type, mode)`. -/
def Inode.new (file_type : FType) (mode : Nat) (now : Nat) : Inode :=
  { mode := mode, size := 0, file_type := file_type, created_at := now,
    modified_at := now, direct_blocks := List.replicate DIRECT_POINTERS 0,
    indirect_block := 0 }

structure DirEntry where
  inode_idx : Nat
  name : List Nat
deriving Repr, DecidableEq

/-! ## Serialization (bincode v1: little-endian fixed-width integers,
u64 length prefixes for sequences and strings). -/

def leBytes : Nat → Nat → List Nat
  | 0, _ => []
  | w + 1, v => v % 256 :: leBytes w (v / 256)

def leVal : List Nat → Nat
  | [] => 0
  | b :: bs => b + 256 * leVal bs

theorem leBytes_length (w v : Nat) : (leBytes w v).length = w := by
  induction w generalizing v with
  | zero => rfl
  | succ n ih => simpa [leBytes] using ih (v / 256)

theorem leVal_leBytes (w v : Nat) (h : v < 256 ^ w) : leVal (leBytes w v) = v := by
  induction w generalizing v with
  | zero =>
    interval_cases v
    rfl
  | succ n ih =>
    have hdiv : v / 256 < 256 ^ n := by
      rw [Nat.div_lt_iff_lt_mul (by norm_num)]
      calc v < 256 ^ (n + 1) := h
        _ = 256 ^ n * 256 := by ring
    rw [leBytes, leVal, ih (v / 256) hdiv, Nat.mod_add_div]

def bincode_ftype : FType → List Nat
  | .file => leBytes 4 0
  | .directory => leBytes 4 1

def bincode_inode (i : Inode) : List Nat :=
  leBytes 2 i.mode ++ leBytes 8 i.size ++ bincode_ftype i.file_type ++
  leBytes 8 i.created_at ++ leBytes 4 0 ++ leBytes 8 i.modified_at ++ leBytes 4 0 ++
  (i.direct_blocks.map (leBytes 8)).flatten ++ leBytes 8 i.indirect_block

def bincode_inode_table (l : List Inode) : List Nat :=
  leBytes 8 l.length ++ (l.map bincode_inode).flatten

def bincode_bitmap (b : Bitmap) : List Nat :=
  leBytes 8 b.bits.length ++ b.bits ++ leBytes 8 b.size

def bincode_superblock (sb : SuperBlock) : List Nat :=
  leBytes 4 sb.magic ++ leBytes 8 sb.total_blocks ++ leBytes 8 sb.total_inodes ++
  leBytes 8 sb.free_blocks_count ++ leBytes 8 sb.inode_table_start ++
  leBytes 8 sb.bitmap_start ++ leBytes 8 sb.root_dir_inode ++ sb.uuid

/-! ## The persistent medium

One PNG file per block id.  A store entry `(bid, plain)` records that the QR
image for block `bid` holds the authenticated envelope of the plaintext
`plain`; the crypto engine and visual codec are modelled as faithful, so
reading and decrypting the block returns `plain`, and an AEAD envelope is
never the all-zero block.  An absent entry is an absent file: `read_block`
returns `BLOCK_SIZE` zero bytes for it. -/

abbrev Store := List (Nat × List Nat)

def storeSet (st : Store) (b : Nat) (v : List Nat) : Store :=
  (b, v) :: st.filter (fun p => p.1 != b)

def storeGet (st : Store) (b : Nat) : Option (List Nat) :=
  List.lookup b st

private theorem lookup_cons_ne_of (k x : Nat) (v : List Nat) (tl : Store) (h : x ≠ k) :
    List.lookup x ((k, v) :: tl) = List.lookup x tl := by
  rw [List.lookup_cons]
  have hbeq : (x == k) = false := by simpa using h
  rw [hbeq]

private theorem lookup_filter_ne (st : Store) (b x : Nat) (h : x ≠ b) :
    List.lookup x (st.filter (fun p => p.1 != b)) = List.lookup x st := by
  induction st with
  | nil => rfl
  | cons hd tl ih =>
    rcases hd with ⟨k, v⟩
    by_cases hk : k = b
    · rw [List.filter_cons_of_neg (by simpa using hk), ih,
        lookup_cons_ne_of k x v tl (by omega)]
    · rw [List.filter_cons_of_pos (by simpa using hk)]
      by_cases hx : x = k
      · subst hx
        simp
      · rw [lookup_cons_ne_of k x v _ hx, lookup_cons_ne_of k x v tl hx]
        exact ih

theorem storeGet_storeSet (st : Store) (b x : Nat) (v : List Nat) :
    storeGet (storeSet st b v) x = if x = b then some v else storeGet st x := by
  unfold storeGet storeSet
  by_cases h : x = b
  · subst h
    simp
  · rw [if_neg h, lookup_cons_ne_of b x v _ h]
    exact lookup_filter_ne st b x h

/-- `BlockDevice::trim(start_block, end_block)`: removes the files in the
half-open range. -/
def trimStore (st : Store) (start_block end_block : Nat) : Store :=
  st.filter (fun p => !(decide (start_block ≤ p.1 ∧ p.1 < end_block)))

/-! ## Visual block device reads (src/qrfs/crates/qrfs_lib/src/device.rs) -/

inductive DeviceError where
  | io
  | qrEncoding
  | image
  | qrDecodingFailed
  | base64Error
  | dataTooLarge (n : Nat)
deriving Repr, DecidableEq

/-- `BlockDevice::read_block`: if the PNG file for the block is absent, return
a zero-filled block; otherwise run the image → QR → Base64 pipeline, which is
abstracted as the `decode` parameter (it is the composition of `image::open`,
the upscale, `rqrr` detection and Base64 decoding on the stored image). -/
def read_block (decode : List Nat → Except DeviceError (List Nat))
    (files : Nat → Option (List Nat)) (block_id : Nat) :
    Except DeviceError (List Nat) :=
  match files block_id with
  | none => .ok (List.replicate BLOCK_SIZE 0)
  | some img => decode img

/-- C9 (claim): reading a block whose backing PNG does not exist succeeds and
returns exactly `BLOCK_SIZE = 1024` zero bytes; the absent file is never an
error. -/
theorem C9_read_absent_block (decode : List Nat → Except DeviceError (List Nat))
    (files : Nat → Option (List Nat)) (block_id : Nat)
    (habsent : files block_id = none) :
    read_block decode files block_id = .ok (List.replicate 1024 0) := by
  unfold read_block
  rw [habsent]
  rfl

/-- Witness for C9: a concrete empty medium. -/
theorem C9_read_absent_block_witness :
    read_block (fun _ => .error .qrDecodingFailed) (fun _ => none) 7 =
      .ok (List.replicate 1024 0) :=
  C9_read_absent_block (fun _ => .error .qrDecodingFailed) (fun _ => none) 7 rfl

/-! ## Bitmap resize (spec-modelled) and the resizer tool -/

/-- Modelled from the spec: `Bitmap::resize(new_size)` is invoked by the
resizer (src/qrfs/crates/qrfs_resize/src/main.rs, step 4) but its definition
is absent from src/qrfs/crates/qrfs_lib/src/bitmap.rs.  Spec §4.3:
"resize(new_size) — grow extends with zero bits; shrink fails if any bit in
the shrunk-off tail is set; succeeds otherwise." -/
def Bitmap.resize (b : Bitmap) (new_size : Nat) : Except Unit Bitmap :=
  if new_size ≥ b.size then
    .ok ⟨b.bits ++ List.replicate ((new_size + 7) / 8 - b.bits.length) 0, new_size⟩
  else if (List.range (b.size - new_size)).any (fun k => b.get (new_size + k)) then
    .error ()
  else
    .ok ⟨b.bits.take ((new_size + 7) / 8), new_size⟩

/-- The persistence behaviour of qrfs_resize/src/main.rs once the superblock
and bitmap are loaded: resize the bitmap in memory; on failure return without
writing anything; otherwise trim the medium on shrink, update the superblock
counters, refuse if the serialized bitmap no longer fits in its block, else
persist the bitmap and then the superblock (block 0 is salt ‖ envelope). -/
def resizer_run (salt : List Nat) (sb : SuperBlock) (bm : Bitmap) (st : Store)
    (new_size : Nat) : Store :=
  if new_size = sb.total_blocks then st
  else match bm.resize new_size with
    | .error _ => st
    | .ok bm' =>
      let st1 := if new_size < sb.total_blocks then trimStore st new_size sb.total_blocks
                 else st
      let newFree : Nat := if new_size > sb.total_blocks
        then sb.free_blocks_count + (new_size - sb.total_blocks)
        else sb.free_blocks_count - (sb.total_blocks - new_size)
      let sb' : SuperBlock := { sb with total_blocks := new_size, free_blocks_count := newFree }
      if (bincode_bitmap bm').length > BLOCK_SIZE - 28 then st1
      else
        storeSet (storeSet st1 sb.bitmap_start (bincode_bitmap bm')) 0
          (salt ++ bincode_superblock sb')

/-- All bits at positions `≥ size` that the byte vector can still address are
clear.  `Bitmap::new` establishes this and `set` (which guards on `size`)
preserves it. -/
def Bitmap.TailClear (b : Bitmap) : Prop :=
  ∀ i, b.size ≤ i → i < 8 * b.bits.length →
    Nat.testBit (b.bits.getD (i / 8) 0) (i % 8) = false

instance (b : Bitmap) : Decidable b.TailClear := by
  unfold Bitmap.TailClear
  infer_instance

private theorem getD_append_replicate (l : List Nat) (k n : Nat) :
    ((l ++ List.replicate k 0).getD n 0) = if n < l.length then l.getD n 0 else 0 := by
  simp only [List.getD_eq_getElem?_getD, List.getElem?_append]
  by_cases h : n < l.length
  · rw [if_pos h, if_pos h]
  · rw [if_neg h, if_neg h, List.getElem?_replicate]
    by_cases h2 : n - l.length < k
    · rw [if_pos h2]
      rfl
    · rw [if_neg h2]
      rfl

private theorem getD_take (l : List Nat) (m n : Nat) (h : n < m) :
    (l.take m).getD n 0 = l.getD n 0 := by
  simp only [List.getD_eq_getElem?_getD]
  rw [List.getElem?_take_of_lt h]

/-- C5 (claim): resizing a bitmap to `N' ≥ size` succeeds and extends it with
zero bits; resizing to `N' < size` fails when some bit in `[N', size)` is set,
in which case the resizer tool leaves the persisted medium untouched, and
succeeds otherwise, preserving all bits below `N'`. -/
theorem C5_bitmap_resize (b : Bitmap) (hwf : b.WF) (htc : b.TailClear) :
    (∀ N', b.size ≤ N' → ∃ b', b.resize N' = .ok b' ∧ b'.size = N' ∧
        ∀ i, b'.get i = if i < b.size then b.get i else false) ∧
    (∀ N', N' < b.size → (∃ i, N' ≤ i ∧ i < b.size ∧ b.get i = true) →
        b.resize N' = .error () ∧
        ∀ salt sb st, sb.total_blocks = b.size →
          resizer_run salt sb b st N' = st) ∧
    (∀ N', N' < b.size → (∀ i, N' ≤ i → i < b.size → b.get i = false) →
        ∃ b', b.resize N' = .ok b' ∧ b'.size = N' ∧
          ∀ i, b'.get i = if i < N' then b.get i else false) := by
  unfold Bitmap.WF at hwf
  refine ⟨?_, ?_, ?_⟩
  · intro N' hge
    refine ⟨_, by unfold Bitmap.resize; rw [if_pos hge], rfl, ?_⟩
    intro i
    show Bitmap.get ⟨b.bits ++ List.replicate ((N' + 7) / 8 - b.bits.length) 0, N'⟩ i = _
    unfold Bitmap.get
    simp only
    by_cases hi : i ≥ N'
    · rw [if_pos hi, if_neg (by omega)]
    · rw [if_neg hi, getD_append_replicate]
      by_cases hlt : i < b.size
      · have hbyte : i / 8 < b.bits.length := by omega
        rw [if_pos hbyte, if_pos hlt]
        rw [if_neg (by omega)]
      · rw [if_neg hlt]
        by_cases hbyte : i / 8 < b.bits.length
        · rw [if_pos hbyte]
          exact htc i (by omega) (by omega)
        · rw [if_neg hbyte]
          exact Nat.zero_testBit _
  · intro N' hlt hset
    have hresize : b.resize N' = .error () := by
      unfold Bitmap.resize
      rw [if_neg (by omega), if_pos ?_]
      obtain ⟨i, h1, h2, h3⟩ := hset
      rw [List.any_eq_true]
      exact ⟨i - N', by simp [List.mem_range]; omega,
        by simpa [Nat.add_sub_cancel' h1] using h3⟩
    refine ⟨hresize, ?_⟩
    intro salt sb st htot
    unfold resizer_run
    rw [if_neg (by omega), hresize]
  · intro N' hlt hclear
    have hresize : b.resize N' = .ok ⟨b.bits.take ((N' + 7) / 8), N'⟩ := by
      unfold Bitmap.resize
      rw [if_neg (by omega), if_neg ?_]
      rw [List.any_eq_true]
      rintro ⟨k, hk, hget⟩
      rw [List.mem_range] at hk
      exact absurd hget (by simp [hclear (N' + k) (by omega) (by omega)])
    refine ⟨_, hresize, rfl, ?_⟩
    intro i
    show Bitmap.get ⟨b.bits.take ((N' + 7) / 8), N'⟩ i = _
    unfold Bitmap.get
    simp only
    by_cases hi : i ≥ N'
    · rw [if_pos hi, if_neg (by omega)]
    · rw [if_neg hi, getD_take _ _ _ (by omega), if_pos (by omega)]
      rw [if_neg (by omega)]

/-- Witness for C5 at a concrete bitmap (bits 0 and 1 set among 4): the shrink
to a single bit refuses because bit 1 is in the shrunk-off tail. -/
theorem C5_bitmap_resize_witness :
    Bitmap.resize ⟨[3], 4⟩ 1 = .error () :=
  ((C5_bitmap_resize ⟨[3], 4⟩ (by decide) (by decide)).2.1 1 (by decide)
    ⟨1, by decide, by decide, by decide⟩).1

/-! ## Mount (qrfs_mount/src/fs.rs, `QRFS::try_mount`)

`CryptoEngine::decrypt` and `bincode::deserialize` are abstracted as function
parameters; `none` stands for any decryption / deserialization failure. -/

/-- The inode-cache installation loop of `try_mount`: every slot with
`mode != 0` goes into the cache under its index. -/
def install_inodes (inode_list : List Inode) : List (Nat × Inode) :=
  inode_list.enum.filter (fun p => p.2.mode != 0)

def try_mount (read0 : Nat → Except DeviceError (List Nat))
    (decrypt : List Nat → Option (List Nat))
    (parse_sb : List Nat → Option SuperBlock)
    (parse_bitmap : List Nat → Option Bitmap)
    (parse_inodes : List Nat → Option (List Inode)) :
    Option (SuperBlock × Bitmap × List (Nat × Inode)) :=
  match read0 0 with
  | .error _ => none
  | .ok block0 =>
    if block0.length < 16 then none
    else
      match decrypt (block0.drop 16) with
      | none => none
      | some sb_bytes =>
        match parse_sb sb_bytes with
        | none => none
        | some sb =>
          match read0 sb.bitmap_start with
          | .error _ => none
          | .ok enc_bitmap =>
            match decrypt enc_bitmap with
            | none => none
            | some bitmap_bytes =>
              match parse_bitmap bitmap_bytes with
              | none => none
              | some bitmap =>
                match read0 sb.inode_table_start with
                | .error _ => none
                | .ok enc_inodes =>
                  match decrypt enc_inodes with
                  | none => none
                  | some inodes_bytes =>
                    match parse_inodes inodes_bytes with
                    | none => none
                    | some inode_list => some (sb, bitmap, install_inodes inode_list)

/-- A superblock whose magic is not the QRFS signature. -/
def badMagicSB : SuperBlock :=
  { magic := 0, total_blocks := 8, total_inodes := 5, free_blocks_count := 3,
    inode_table_start := 2, bitmap_start := 1, root_dir_inode := 1,
    uuid := List.replicate 16 0 }

/-- C2 (counterexample): the claim says the mount procedure verifies the
decrypted superblock's magic and aborts on a mismatch.  `try_mount` contains
no such check: on a volume whose block 0 decrypts to a superblock with
`magic = 0 ≠ 0x51524653`, the mount succeeds. -/
theorem C2_mount_accepts_bad_magic :
    badMagicSB.magic ≠ QRFS_MAGIC ∧
    (try_mount (fun _ => .ok (List.replicate 32 0))
      (fun bytes => some bytes)
      (fun _ => some badMagicSB)
      (fun _ => some (Bitmap.new 8))
      (fun _ => some [Inode.new .file 0 0, Inode.new .directory 493 0])).isSome = true :=
  ⟨by decide, rfl⟩

/-- C2 (amended): `try_mount` never inspects `magic`.  Whenever block 0 is
readable with at least 16 bytes and the three decrypt + deserialize chains
succeed, the mount succeeds for ANY magic value in the decoded superblock;
mount aborts only on a read, decryption, or deserialization failure. -/
theorem C2_mount_ignores_magic (read0 : Nat → Except DeviceError (List Nat))
    (decrypt : List Nat → Option (List Nat))
    (parse_sb : List Nat → Option SuperBlock)
    (parse_bitmap : List Nat → Option Bitmap)
    (parse_inodes : List Nat → Option (List Inode))
    (block0 sb_bytes enc_bitmap bitmap_bytes enc_inodes inodes_bytes : List Nat)
    (sb : SuperBlock) (bitmap : Bitmap) (inode_list : List Inode)
    (h0 : read0 0 = .ok block0) (hlen : ¬ block0.length < 16)
    (h1 : decrypt (block0.drop 16) = some sb_bytes)
    (h2 : parse_sb sb_bytes = some sb)
    (h3 : read0 sb.bitmap_start = .ok enc_bitmap)
    (h4 : decrypt enc_bitmap = some bitmap_bytes)
    (h5 : parse_bitmap bitmap_bytes = some bitmap)
    (h6 : read0 sb.inode_table_start = .ok enc_inodes)
    (h7 : decrypt enc_inodes = some inodes_bytes)
    (h8 : parse_inodes inodes_bytes = some inode_list) :
    try_mount read0 decrypt parse_sb parse_bitmap parse_inodes =
      some (sb, bitmap, install_inodes inode_list) := by
  simp only [try_mount, h0, h1, h2, h3, h4, h5, h6, h7, h8, if_neg hlen]

/-- Witness for C2's amended theorem: a concrete volume whose superblock has
magic 99 mounts successfully. -/
theorem C2_mount_ignores_magic_witness :
    try_mount (fun _ => .ok (List.replicate 32 1)) (fun bytes => some bytes)
      (fun _ => some { badMagicSB with magic := 99 })
      (fun _ => some (Bitmap.new 8)) (fun _ => some [Inode.new .directory 493 7]) =
      some ({ badMagicSB with magic := 99 }, Bitmap.new 8,
        install_inodes [Inode.new .directory 493 7]) :=
  C2_mount_ignores_magic _ _ _ _ _ (List.replicate 32 1) ((List.replicate 32 1).drop 16)
    (List.replicate 32 1) (List.replicate 32 1) (List.replicate 32 1) (List.replicate 32 1)
    { badMagicSB with magic := 99 } (Bitmap.new 8) [Inode.new .directory 493 7]
    rfl (by decide) rfl rfl rfl rfl rfl rfl rfl rfl

/-! ## Filesystem runtime (qrfs_mount/src/fs.rs)

The runtime state is the `QRFS` struct: superblock, bitmap, the backing
medium (`device`), and the in-RAM inode cache (a `HashMap`, modelled as an
association list with distinct keys). -/

structure FSState where
  sb : SuperBlock
  bitmap : Bitmap
  store : Store
  inodes : List (Nat × Inode)
deriving Repr, DecidableEq

/-- `HashMap::insert`. -/
def cacheInsert (k : Nat) (v : Inode) (m : List (Nat × Inode)) : List (Nat × Inode) :=
  (k, v) :: m.filter (fun p => p.1 != k)

/-- `HashMap::remove`. -/
def cacheRemove (k : Nat) (m : List (Nat × Inode)) : List (Nat × Inode) :=
  m.filter (fun p => p.1 != k)

/-- A persistence event: something `sync_bitmap`, a data-block write, or
`sync_inode` put on the medium.  `ptbl` records the inode record passed to
`sync_inode` (the payload of the rewritten first inode-table block). -/
inductive PEvent where
  | pbm (bm : Bitmap)
  | pdata (block_id : Nat) (plain : List Nat)
  | ptbl (inode_idx : Nat) (inode : Inode)
deriving Repr, DecidableEq

/-- The 5-slot inode vector rebuilt by `sync_inode`:
`vec![Inode::new(File, 0); 5]`, overlaid with every cached inode whose index
is below 5, then the inode being synced.  (The `now` argument of the default
inodes is irrelevant: their mode-0 slots are never observed.) -/
def sync_inode_list (inodes : List (Nat × Inode)) (inode_idx : Nat) (inode : Inode) :
    List Inode :=
  let base := List.replicate 5 (Inode.new .file 0 0)
  let withCache := inodes.foldl
    (fun acc kv => if kv.1 < 5 then acc.set kv.1 kv.2 else acc) base
  if inode_idx < 5 then withCache.set inode_idx inode else withCache

/-- `QRFS::sync_bitmap`: serialize, encrypt, write at `bitmap_start`. -/
def sync_bitmap (s : FSState) : FSState :=
  { s with store := storeSet s.store s.sb.bitmap_start (bincode_bitmap s.bitmap) }

/-- `QRFS::sync_inode`: rebuild the 5-slot vector and write it (encrypted) at
`inode_table_start`. -/
def sync_inode (s : FSState) (inode_idx : Nat) (inode : Inode) : FSState :=
  let tbl := bincode_inode_table (sync_inode_list s.inodes inode_idx inode)
  { s with store := storeSet s.store s.sb.inode_table_start tbl }

/-- The block-iteration of `QRFS::read_inode_data`: walk `direct_blocks`,
stop at the first 0, skip blocks whose stored image is all zeroes (absent
files read back as a zero block), append the decrypted payload otherwise. -/
def read_inode_data_go (st : Store) : List Nat → List Nat
  | [] => []
  | block_id :: rest =>
    if block_id = 0 then []
    else match storeGet st block_id with
      | none => read_inode_data_go st rest
      | some plain => plain ++ read_inode_data_go st rest

/-- `QRFS::read_inode_data`: concatenate the payloads, then truncate to the
inode's logical size. -/
def read_inode_data (s : FSState) (inode : Inode) : List Nat :=
  let data := read_inode_data_go s.store inode.direct_blocks
  if data.length > inode.size then data.take inode.size else data

/-- Partition a payload into `CHUNK_SIZE`-byte chunks, as the
`while written < new_data.len()` loop does.  Fuel `d.length` makes the
recursion structural and is always sufficient. -/
def chunksGo : Nat → List Nat → List (List Nat)
  | 0, _ => []
  | fuel + 1, d =>
    if d = [] then []
    else d.take CHUNK_SIZE :: chunksGo fuel (d.drop CHUNK_SIZE)

def chunks900 (d : List Nat) : List (List Nat) := chunksGo d.length d

/-- The chunk-writing loop of `QRFS::write_inode_data`: for each chunk, reuse
the direct slot's block or allocate a fresh one (persisting the bitmap right
after the allocation), then encrypt and write the chunk. -/
def write_chunks (bmStart : Nat) :
    Bitmap → Store → List Nat → Nat → List (List Nat) → List PEvent →
    Except Int (Bitmap × Store × List Nat × Nat × List PEvent)
  | bm, st, db, ptr, [], tr => .ok (bm, st, db, ptr, tr)
  | bm, st, db, ptr, c :: cs, tr =>
    if ptr ≥ DIRECT_POINTERS then .error ENOSPC
    else
      let block_id := db.getD ptr 0
      if block_id = 0 then
        match bm.allocate with
        | (none, _) => .error ENOSPC
        | (some b, bm') =>
          let st1 := storeSet st bmStart (bincode_bitmap bm')
          let st2 := storeSet st1 b c
          write_chunks bmStart bm' st2 (db.set ptr b) (ptr + 1) cs
            (tr ++ [.pbm bm', .pdata b c])
      else
        let st1 := storeSet st block_id c
        write_chunks bmStart bm st1 db (ptr + 1) cs (tr ++ [.pdata block_id c])

/-- The trailing-slot loop `for i in block_ptr_idx+1..DIRECT_POINTERS` of
`write_inode_data`: free the slot's block in the bitmap and clear the slot.
Fuel `DIRECT_POINTERS - start` covers the whole range. -/
def free_trailing : Bitmap → List Nat → Nat → Nat → Bitmap × List Nat
  | bm, db, _, 0 => (bm, db)
  | bm, db, i, fuel + 1 =>
    if i < DIRECT_POINTERS then
      let block_id := db.getD i 0
      if block_id ≠ 0 then free_trailing (bm.set block_id false) (db.set i 0) (i + 1) fuel
      else free_trailing bm db (i + 1) fuel
    else (bm, db)

/-- `QRFS::write_inode_data`: whole-file replacement of an inode's bytes.
Returns the updated state together with the sequence of persistence events,
in the order the source issues them. -/
def write_inode_data (s : FSState) (inode_idx : Nat) (new_data : List Nat) (now : Nat) :
    Except Int (FSState × List PEvent) :=
  match List.lookup inode_idx s.inodes with
  | none => .error ENOENT
  | some inode =>
    match write_chunks s.sb.bitmap_start s.bitmap s.store inode.direct_blocks 0
        (chunks900 new_data) [] with
    | .error e => .error e
    | .ok (bm1, st1, db1, ptr, tr1) =>
      let fr := free_trailing bm1 db1 (ptr + 1) (DIRECT_POINTERS - (ptr + 1))
      let st2 := storeSet st1 s.sb.bitmap_start (bincode_bitmap fr.1)
      let inode' : Inode :=
        { mode := inode.mode, size := new_data.length, file_type := inode.file_type,
          created_at := inode.created_at, modified_at := now,
          direct_blocks := fr.2, indirect_block := inode.indirect_block }
      let inodes' := cacheInsert inode_idx inode' s.inodes
      let tbl := bincode_inode_table (sync_inode_list inodes' inode_idx inode')
      let st3 := storeSet st2 s.sb.inode_table_start tbl
      .ok ({ s with bitmap := fr.1, store := st3, inodes := inodes' },
        tr1 ++ [.pbm fr.1, .ptbl inode_idx inode'])

/-- The block-freeing loop of `QRFS::free_inode_resources`. -/
def clear_blocks : Bitmap → List Nat → Bitmap
  | bm, [] => bm
  | bm, block_id :: rest =>
    clear_blocks (if block_id ≠ 0 then bm.set block_id false else bm) rest

/-- `QRFS::free_inode_resources`: clear every non-zero direct block in the
bitmap, persist the bitmap, zero the inode (mode 0), persist the inode
record, drop it from the cache.  A missing inode is a silent no-op. -/
def free_inode_resources (s : FSState) (inode_idx : Nat) : FSState × List PEvent :=
  match List.lookup inode_idx s.inodes with
  | none => (s, [])
  | some inode =>
    let bm' := clear_blocks s.bitmap inode.direct_blocks
    let st1 := storeSet s.store s.sb.bitmap_start (bincode_bitmap bm')
    let inode' : Inode :=
      { mode := 0, size := 0, file_type := inode.file_type,
        created_at := inode.created_at, modified_at := inode.modified_at,
        direct_blocks := List.replicate DIRECT_POINTERS 0,
        indirect_block := inode.indirect_block }
    let inodes1 := cacheInsert inode_idx inode' s.inodes
    let tbl := bincode_inode_table (sync_inode_list inodes1 inode_idx inode')
    let st2 := storeSet st1 s.sb.inode_table_start tbl
    let inodes2 := cacheRemove inode_idx inodes1
    ({ s with bitmap := bm', store := st2, inodes := inodes2 },
      [.pbm bm', .ptbl inode_idx inode'])

/-! ## Directory-entry serialization (bincode for `Vec<DirEntry>`) -/

def encodeEntry (e : DirEntry) : List Nat :=
  leBytes 8 e.inode_idx ++ leBytes 8 e.name.length ++ e.name

def encodeEntries (l : List DirEntry) : List Nat :=
  leBytes 8 l.length ++ (l.map encodeEntry).flatten

def decodeEntriesGo : Nat → List Nat → Option (List DirEntry × List Nat)
  | 0, rest => some ([], rest)
  | n + 1, bytes =>
    if bytes.length < 8 then none
    else
      let idx := leVal (bytes.take 8)
      let r1 := bytes.drop 8
      if r1.length < 8 then none
      else
        let nameLen := leVal (r1.take 8)
        let r2 := r1.drop 8
        if r2.length < nameLen then none
        else
          match decodeEntriesGo n (r2.drop nameLen) with
          | some (es, rest) => some (⟨idx, r2.take nameLen⟩ :: es, rest)
          | none => none

def decodeEntries (bytes : List Nat) : Option (List DirEntry) :=
  if bytes.length < 8 then none
  else
    match decodeEntriesGo (leVal (bytes.take 8)) (bytes.drop 8) with
    | some (es, _) => some es
    | none => none

/-- `QRFS::read_dir_entries`: only inode 1 has entries; empty data is an
empty directory; otherwise deserialize. -/
def read_dir_entries (s : FSState) (inode_idx : Nat) : Except Int (List DirEntry) :=
  if inode_idx ≠ 1 then .error ENOTDIR
  else match List.lookup 1 s.inodes with
    | none => .error ENOENT
    | some root =>
      let data := read_inode_data s root
      if data = [] then .ok []
      else match decodeEntries data with
        | some es => .ok es
        | none => .error EIO

/-- `QRFS::add_dir_entry`: reject duplicates, push, rewrite inode 1's data. -/
def add_dir_entry (s : FSState) (name : List Nat) (inode_idx : Nat) (now : Nat) :
    Except Int (FSState × List PEvent) :=
  match read_dir_entries s 1 with
  | .error e => .error e
  | .ok entries =>
    if entries.any (fun e => e.name == name) then .error EIO
    else write_inode_data s 1 (encodeEntries (entries ++ [⟨inode_idx, name⟩])) now

/-- `QRFS::remove_dir_entry`: locate by name, remove, rewrite inode 1's data;
returns the removed entry's inode index. -/
def remove_dir_entry (s : FSState) (name : List Nat) (now : Nat) :
    Except Int (Nat × FSState × List PEvent) :=
  match read_dir_entries s 1 with
  | .error e => .error e
  | .ok entries =>
    match entries.findIdx? (fun e => e.name == name) with
    | none => .error ENOENT
    | some pos =>
      let inode_idx := (entries.getD pos ⟨0, []⟩).inode_idx
      match write_inode_data s 1 (encodeEntries (entries.eraseIdx pos)) now with
      | .error e => .error e
      | .ok (s', tr) => .ok (inode_idx, s', tr)

/-- The entry scan of `Filesystem::lookup`: the first entry whose name matches
AND whose inode is in the cache wins (a matching entry with an uncached inode
is skipped by the nested `if let`). -/
def lookup_go (inodes : List (Nat × Inode)) (name : List Nat) :
    List DirEntry → Except Int (Nat × Inode)
  | [] => .error ENOENT
  | e :: rest =>
    if e.name = name then
      match List.lookup e.inode_idx inodes with
      | some ino => .ok (e.inode_idx, ino)
      | none => lookup_go inodes name rest
    else lookup_go inodes name rest

/-- `Filesystem::lookup` (fs.rs): only parent 1 is supported; returns the
`(inode index, inode)` pair from which the reply's `FileAttr` is built. -/
def lookup_op (s : FSState) (parent : Nat) (name : List Nat) : Except Int (Nat × Inode) :=
  if parent ≠ 1 then .error ENOENT
  else match read_dir_entries s parent with
    | .ok entries => lookup_go s.inodes name entries
    | .error e => .error e

/-- The id scan of `Filesystem::create`: `let mut id = 2; while cache.contains_key(id) id += 1`.
Fuel `cache.length + 1` is always enough to find a free id. -/
def freshIdGo (inodes : List (Nat × Inode)) : Nat → Nat → Nat
  | 0, n => n
  | fuel + 1, n =>
    if (List.lookup n inodes).isSome then freshIdGo inodes fuel (n + 1) else n

/-- `Filesystem::create`: pick the lowest uncached index ≥ 2, install the new
live inode, persist the inode table, append the directory entry.  Returns the
created `(index, inode)` and the new state. -/
def create_op (s : FSState) (parent : Nat) (name : List Nat) (mode : Nat) (now : Nat) :
    Except Int (Nat × Inode × FSState × List PEvent) :=
  if parent ≠ 1 then .error ENOENT
  else
    let new_inode_id := freshIdGo s.inodes (s.inodes.length + 1) 2
    let new_inode := Inode.new .file mode now
    let s1 := { s with inodes := cacheInsert new_inode_id new_inode s.inodes }
    let s2 := sync_inode s1 new_inode_id new_inode
    match add_dir_entry s2 name new_inode_id now with
    | .error e => .error e
    | .ok (s3, tr) => .ok (new_inode_id, new_inode, s3, tr)

/-- `Filesystem::unlink`: remove the directory entry, then free the inode's
resources (errors of the latter are discarded by the source). -/
def unlink_op (s : FSState) (parent : Nat) (name : List Nat) (now : Nat) :
    Except Int (FSState × List PEvent) :=
  if parent ≠ 1 then .error ENOENT
  else match remove_dir_entry s name now with
    | .error e => .error e
    | .ok (inode_idx, s', tr1) =>
      let fr := free_inode_resources s' inode_idx
      .ok (fr.1, tr1 ++ fr.2)

/-- `Filesystem::read`: full-inode read, then slice `[offset, min(offset+size, len))`. -/
def read_op (s : FSState) (ino : Nat) (offset size : Nat) : Except Int (List Nat) :=
  match List.lookup ino s.inodes with
  | none => .error ENOENT
  | some inode =>
    let data := read_inode_data s inode
    if offset ≥ data.length then .ok []
    else .ok ((data.drop offset).take (min (offset + size) data.length - offset))

/-! ## Format tool (src/qrfs/crates/qrfs_mkfs/src/main.rs) -/

/-- mkfs: `let inodes_per_block = (BLOCK_SIZE / 150).max(1);` (= 6). -/
def inodes_per_block : Nat := max (BLOCK_SIZE / 150) 1

/-- The first inode-table block written by mkfs: `inodes_per_block` free slots
with the root directory inode (mode 0o755, first direct block at the root
data block) placed at index 1. -/
def mkfs_inode_table (root_block : Nat) (now : Nat) : List Inode :=
  let root_inode : Inode :=
    { mode := 0o755, size := 0, file_type := .directory, created_at := now,
      modified_at := now,
      direct_blocks := (List.replicate DIRECT_POINTERS 0).set 0 root_block,
      indirect_block := 0 }
  (List.replicate inodes_per_block (Inode.new .file 0 now)).set 1 root_inode

/-! ## Checker (src/qrfs/crates/qrfs_fsck/src/main.rs)

The `HashSet<u64>` of calculated-used blocks is modelled as a list; only
membership is ever observed.  `calc_used` is the build loop of fsck step 5;
`checker_corruptions`/`checker_orphans` are the two report loops of step 6. -/

def calc_used (sb : SuperBlock) (inode_list : List Inode) : List Nat :=
  inode_list.foldl (fun acc inode =>
    if inode.mode ≠ 0 then
      inode.direct_blocks.foldl (fun acc2 block_id =>
        if block_id ≠ 0 then
          (if block_id ≥ sb.total_blocks then acc2 else acc2 ++ [block_id])
        else acc2) acc
    else acc) [0, sb.bitmap_start, sb.inode_table_start]

def checker_corruptions (sb : SuperBlock) (inode_list : List Inode) (stored : Bitmap) :
    List Nat :=
  (calc_used sb inode_list).filter (fun block_id => !stored.get block_id)

def checker_orphans (sb : SuperBlock) (inode_list : List Inode) (stored : Bitmap) :
    List Nat :=
  (List.range sb.total_blocks).filter
    (fun i => stored.get i && !((calc_used sb inode_list).contains i))

private theorem mem_inner_fold (T : Nat) (db : List Nat) :
    ∀ acc x, (x ∈ db.foldl (fun acc2 block_id =>
        if block_id ≠ 0 then (if block_id ≥ T then acc2 else acc2 ++ [block_id])
        else acc2) acc) ↔
      x ∈ acc ∨ (x ∈ db ∧ x ≠ 0 ∧ x < T) := by
  induction db with
  | nil => intro acc x; simp
  | cons hd tl ih =>
    intro acc x
    simp only [List.foldl_cons]
    rw [ih]
    by_cases h1 : hd ≠ 0
    · rw [if_pos h1]
      by_cases h2 : hd ≥ T
      · rw [if_pos h2]
        constructor
        · rintro (ha | ⟨hm, hx, hT⟩)
          · exact Or.inl ha
          · exact Or.inr ⟨List.mem_cons_of_mem hd hm, hx, hT⟩
        · rintro (ha | ⟨hm, hx, hT⟩)
          · exact Or.inl ha
          · rcases List.mem_cons.1 hm with rfl | hm'
            · omega
            · exact Or.inr ⟨hm', hx, hT⟩
      · rw [if_neg h2]
        constructor
        · rintro (ha | ⟨hm, hx, hT⟩)
          · rcases List.mem_append.1 ha with ha' | hx'
            · exact Or.inl ha'
            · rcases List.mem_singleton.1 hx' with rfl
              exact Or.inr ⟨List.mem_cons_self _ _, h1, by omega⟩
          · exact Or.inr ⟨List.mem_cons_of_mem hd hm, hx, hT⟩
        · rintro (ha | ⟨hm, hx, hT⟩)
          · exact Or.inl (List.mem_append.2 (Or.inl ha))
          · rcases List.mem_cons.1 hm with rfl | hm'
            · exact Or.inl (List.mem_append.2 (Or.inr (List.mem_singleton.2 rfl)))
            · exact Or.inr ⟨hm', hx, hT⟩
    · rw [if_neg h1]
      push_neg at h1
      constructor
      · rintro (ha | ⟨hm, hx, hT⟩)
        · exact Or.inl ha
        · exact Or.inr ⟨List.mem_cons_of_mem hd hm, hx, hT⟩
      · rintro (ha | ⟨hm, hx, hT⟩)
        · exact Or.inl ha
        · rcases List.mem_cons.1 hm with rfl | hm'
          · omega
          · exact Or.inr ⟨hm', hx, hT⟩

private theorem mem_outer_fold (sb : SuperBlock) (l : List Inode) :
    ∀ acc x, (x ∈ l.foldl (fun acc inode =>
        if inode.mode ≠ 0 then
          inode.direct_blocks.foldl (fun acc2 block_id =>
            if block_id ≠ 0 then
              (if block_id ≥ sb.total_blocks then acc2 else acc2 ++ [block_id])
            else acc2) acc
        else acc) acc) ↔
      x ∈ acc ∨ ∃ ino, ino ∈ l ∧ ino.mode ≠ 0 ∧ x ∈ ino.direct_blocks ∧
        x ≠ 0 ∧ x < sb.total_blocks := by
  induction l with
  | nil => intro acc x; simp
  | cons hd tl ih =>
    intro acc x
    simp only [List.foldl_cons]
    rw [ih]
    by_cases hm : hd.mode ≠ 0
    · rw [if_pos hm, mem_inner_fold]
      constructor
      · rintro ((ha | ⟨hdb, hx, hT⟩) | ⟨ino, hino, h1, h2, h3, h4⟩)
        · exact Or.inl ha
        · exact Or.inr ⟨hd, List.mem_cons_self hd tl, hm, hdb, hx, hT⟩
        · exact Or.inr ⟨ino, List.mem_cons_of_mem hd hino, h1, h2, h3, h4⟩
      · rintro (ha | ⟨ino, hino, h1, h2, h3, h4⟩)
        · exact Or.inl (Or.inl ha)
        · rcases List.mem_cons.1 hino with rfl | hino'
          · exact Or.inl (Or.inr ⟨h2, h3, h4⟩)
          · exact Or.inr ⟨ino, hino', h1, h2, h3, h4⟩
    · rw [if_neg hm]
      constructor
      · rintro (ha | ⟨ino, hino, h1, h2, h3, h4⟩)
        · exact Or.inl ha
        · exact Or.inr ⟨ino, List.mem_cons_of_mem hd hino, h1, h2, h3, h4⟩
      · rintro (ha | ⟨ino, hino, h1, h2, h3, h4⟩)
        · exact Or.inl ha
        · rcases List.mem_cons.1 hino with rfl | hino'
          · exact absurd h1 hm
          · exact Or.inr ⟨ino, hino', h1, h2, h3, h4⟩

/-- The "calculated used" set of the claim: block 0, the bitmap block, the
inode-table block, and every non-zero in-range direct block of a live inode. -/
def CalcUsedSpec (sb : SuperBlock) (inode_list : List Inode) (x : Nat) : Prop :=
  x = 0 ∨ x = sb.bitmap_start ∨ x = sb.inode_table_start ∨
  ∃ ino, ino ∈ inode_list ∧ ino.mode ≠ 0 ∧ x ∈ ino.direct_blocks ∧
    x ≠ 0 ∧ x < sb.total_blocks

theorem mem_calc_used (sb : SuperBlock) (inode_list : List Inode) (x : Nat) :
    x ∈ calc_used sb inode_list ↔ CalcUsedSpec sb inode_list x := by
  unfold calc_used CalcUsedSpec
  rw [mem_outer_fold]
  simp only [List.mem_cons, List.mem_singleton, List.not_mem_nil, or_false]
  tauto

/-- C8 (claim): the checker reports a block as corruption iff it is in the
calculated-used set and its stored-bitmap bit is clear, and reports
`i < total_blocks` as orphan iff its stored bit is set and it is not in the
calculated-used set. -/
theorem C8_checker_classification (sb : SuperBlock) (inode_list : List Inode)
    (stored : Bitmap) :
    (∀ block_id, block_id ∈ checker_corruptions sb inode_list stored ↔
        (CalcUsedSpec sb inode_list block_id ∧ stored.get block_id = false)) ∧
    (∀ i, i ∈ checker_orphans sb inode_list stored ↔
        (i < sb.total_blocks ∧ stored.get i = true ∧
          ¬ CalcUsedSpec sb inode_list i)) := by
  constructor
  · intro block_id
    unfold checker_corruptions
    rw [List.mem_filter, mem_calc_used]
    simp
  · intro i
    unfold checker_orphans
    rw [List.mem_filter, List.mem_range]
    simp only [Bool.and_eq_true, Bool.not_eq_true']
    rw [← Bool.not_eq_true ((calc_used sb inode_list).contains i)]
    simp only [List.contains_eq_any_beq, List.any_eq_true, beq_iff_eq]
    constructor
    · rintro ⟨h1, h2, h3⟩
      refine ⟨h1, h2, fun hspec => h3 ⟨i, (mem_calc_used sb inode_list i).2 hspec, rfl⟩⟩
    · rintro ⟨h1, h2, h3⟩
      refine ⟨h1, h2, fun hex => ?_⟩
      rcases hex with ⟨y, hy, hiy⟩
      exact h3 (hiy ▸ (mem_calc_used sb inode_list y).1 hy)

/-! ## C10: the 5-slot `sync_inode` rewrite -/

private theorem getD_set_generic {α : Type} (l : List α) (m n : Nat) (x d : α) :
    (l.set m x).getD n d = if m = n ∧ m < l.length then x else l.getD n d := by
  rcases Decidable.em (m = n) with rfl | hne
  · by_cases hm : m < l.length
    · simp [List.getD_eq_getElem?_getD, List.getElem?_set_self hm, hm]
    · simp only [List.getD_eq_getElem?_getD]
      rw [List.set_eq_of_length_le (by omega)]
      simp [hm]
  · simp [List.getD_eq_getElem?_getD, List.getElem?_set_ne hne, hne]

private theorem lookup_cons_ne_inode (k x : Nat) (v : Inode) (tl : List (Nat × Inode))
    (h : x ≠ k) : List.lookup x ((k, v) :: tl) = List.lookup x tl := by
  rw [List.lookup_cons]
  have hbeq : (x == k) = false := by simpa using h
  rw [hbeq]

private theorem lookup_eq_none_of_not_mem (x : Nat) (tl : List (Nat × Inode))
    (h : x ∉ tl.map Prod.fst) : List.lookup x tl = none := by
  induction tl with
  | nil => rfl
  | cons hd tl ih =>
    rcases hd with ⟨k, v⟩
    simp only [List.map_cons, List.mem_cons] at h
    push_neg at h
    rw [lookup_cons_ne_inode k x v tl h.1]
    exact ih h.2

private theorem getD_fold_cache :
    ∀ (cache : List (Nat × Inode)) (base : List Inode), (cache.map Prod.fst).Nodup →
      base.length = 5 → ∀ j, j < 5 →
      (cache.foldl (fun acc kv => if kv.1 < 5 then acc.set kv.1 kv.2 else acc)
          base).getD j (Inode.new .file 0 0) =
        match List.lookup j cache with
        | some v => v
        | none => base.getD j (Inode.new .file 0 0) := by
  intro cache
  induction cache with
  | nil => intro base hnd hlen j hj; rfl
  | cons hd tl ih =>
    intro base hnd hlen j hj
    rcases hd with ⟨k, v⟩
    simp only [List.foldl_cons]
    simp only [List.map_cons, List.nodup_cons] at hnd
    by_cases hk : k < 5
    · rw [if_pos hk,
        ih (base.set k v) hnd.2 (by simp [hlen]) j hj]
      by_cases hjk : j = k
      · subst hjk
        rw [lookup_eq_none_of_not_mem j tl hnd.1]
        have hself : List.lookup j ((j, v) :: tl) = some v := by simp
        rw [hself, getD_set_generic, if_pos ⟨rfl, by omega⟩]
      · rw [lookup_cons_ne_inode k j v tl hjk, getD_set_generic,
          if_neg (fun hc => hjk hc.1.symm)]
    · rw [if_neg hk, ih base hnd.2 hlen j hj,
        lookup_cons_ne_inode k j v tl (by omega)]

/-- C10 (claim, implicit): every runtime `sync_inode` rewrites the first
inode-table block as exactly 5 slots rebuilt from the cache — any cached inode
with index ≥ 5 is silently dropped (and `create` can pick such indices, e.g.
index 6 when 1–5 are cached), uncached slots are persisted free (mode 0) —
while mkfs formats a 6-slot table. -/
theorem C10_sync_inode_five_slots :
    (∀ cache idx ino, (sync_inode_list cache idx ino).length = 5) ∧
    (∀ (cache : List (Nat × Inode)) idx ino, (cache.map Prod.fst).Nodup →
      ∀ j, j < 5 →
        (sync_inode_list cache idx ino).getD j (Inode.new .file 0 0) =
          if j = idx then ino
          else match List.lookup j cache with
            | some v => v
            | none => Inode.new .file 0 0) ∧
    (∀ cache idx ino ino', 5 ≤ idx →
        sync_inode_list cache idx ino = sync_inode_list cache idx ino') ∧
    (∀ k v cache idx ino, 5 ≤ k →
        sync_inode_list ((k, v) :: cache) idx ino = sync_inode_list cache idx ino) ∧
    (freshIdGo [(1, Inode.new .directory 493 0), (2, Inode.new .file 420 0),
        (3, Inode.new .file 420 0), (4, Inode.new .file 420 0),
        (5, Inode.new .file 420 0)] 6 2 = 6) ∧
    (mkfs_inode_table 3 0).length = inodes_per_block ∧ inodes_per_block = 6 := by
  have hlen : ∀ (cache : List (Nat × Inode)) (base : List Inode),
      (cache.foldl (fun acc kv => if kv.1 < 5 then acc.set kv.1 kv.2 else acc)
        base).length = base.length := by
    intro cache
    induction cache with
    | nil => intro base; rfl
    | cons hd tl ih =>
      intro base
      simp only [List.foldl_cons]
      by_cases h : hd.1 < 5
      · rw [if_pos h, ih]
        simp
      · rw [if_neg h, ih]
  refine ⟨?_, ?_, ?_, ?_, by decide, ?_, by decide⟩
  · intro cache idx ino
    unfold sync_inode_list
    by_cases h : idx < 5
    · rw [if_pos h]
      simp only [List.length_set]
      rw [hlen]
      rfl
    · rw [if_neg h, hlen]
      rfl
  · intro cache idx ino hnd j hj
    have hbase : (List.replicate 5 (Inode.new .file 0 0)).getD j (Inode.new .file 0 0) =
        Inode.new .file 0 0 := by
      interval_cases j <;> rfl
    unfold sync_inode_list
    by_cases hidx : idx < 5
    · rw [if_pos hidx, getD_set_generic]
      by_cases hji : j = idx
      · rw [if_pos ⟨hji.symm, by rw [hlen]; simpa using hidx⟩, if_pos hji]
      · rw [if_neg (fun hc => hji hc.1.symm), if_neg hji,
          getD_fold_cache cache _ hnd (by simp) j hj]
        cases List.lookup j cache
        · simpa using hbase
        · rfl
    · rw [if_neg hidx, if_neg (by omega),
        getD_fold_cache cache _ hnd (by simp) j hj]
      cases List.lookup j cache
      · simpa using hbase
      · rfl
  · intro cache idx ino ino' hidx
    unfold sync_inode_list
    rw [if_neg (by omega), if_neg (by omega)]
  · intro k v cache idx ino hk
    unfold sync_inode_list
    simp only [List.foldl_cons]
    rw [if_neg (show ¬((k, v).1 < 5) by simpa using hk)]
  · unfold mkfs_inode_table
    simp

/-- Witness for C10's cache characterization at a concrete cache: index 7 is
dropped, slot 2 comes from the cache, slot 3 is persisted free. -/
theorem C10_sync_inode_five_slots_witness :
    (sync_inode_list [(2, Inode.new .file 420 9), (7, Inode.new .file 420 9)] 7
        (Inode.new .file 420 9)).getD 2 (Inode.new .file 0 0) =
      Inode.new .file 420 9 := by
  rw [C10_sync_inode_five_slots.2.1 [(2, Inode.new .file 420 9), (7, Inode.new .file 420 9)]
    7 (Inode.new .file 420 9) (by decide) 2 (by decide)]
  decide

/-! ## Helper lemmas for the write path -/

theorem Bitmap.allocate_some (bm : Bitmap) (b : Nat) (bmA : Bitmap)
    (h : bm.allocate = (some b, bmA)) :
    b < bm.size ∧ bm.get b = false ∧ bmA = bm.set b true := by
  unfold Bitmap.allocate at h
  rcases hscan : bm.allocScanGo bm.size 0 with _ | k <;> rw [hscan] at h
  · exact absurd h (by simp)
  · simp only [Prod.mk.injEq, Option.some.injEq] at h
    obtain ⟨h1, h2⟩ := h
    obtain ⟨-, hget, hfalse, -⟩ := (bm.allocScanGo_some_iff bm.size 0 k (by omega)).1 hscan
    exact ⟨h1 ▸ hget, h1 ▸ hfalse, h1 ▸ h2.symm⟩

theorem chunksGo_flatten : ∀ fuel d, d.length ≤ fuel → (chunksGo fuel d).flatten = d := by
  intro fuel
  induction fuel with
  | zero =>
    intro d h
    rw [Nat.le_zero, List.length_eq_zero] at h
    subst h
    rfl
  | succ n ih =>
    intro d h
    unfold chunksGo
    by_cases hd : d = []
    · rw [if_pos hd, hd]
      rfl
    · rw [if_neg hd]
      have hlen : (d.drop CHUNK_SIZE).length ≤ n := by
        have : 0 < d.length := List.length_pos.2 hd
        simp only [List.length_drop]
        have : 0 < CHUNK_SIZE := by norm_num [CHUNK_SIZE]
        omega
      simp only [List.flatten_cons, ih (d.drop CHUNK_SIZE) hlen, List.take_append_drop]

theorem chunks900_flatten (d : List Nat) : (chunks900 d).flatten = d :=
  chunksGo_flatten d.length d le_rfl

private theorem getD_pos_lt (l : List Nat) (n : Nat) (h : l.getD n 0 ≠ 0) : n < l.length := by
  by_contra hc
  rw [List.getD_eq_getElem?_getD, List.getElem?_eq_none (by omega)] at h
  exact h rfl

theorem free_trailing_spec : ∀ (fuel : Nat) (bm : Bitmap) (db : List Nat) (start : Nat),
    ((free_trailing bm db start fuel).2.length = db.length) ∧
    (∀ i, i < start → (free_trailing bm db start fuel).2.getD i 0 = db.getD i 0) ∧
    (∀ i, start ≤ i → i < DIRECT_POINTERS → i < start + fuel →
      (free_trailing bm db start fuel).2.getD i 0 = 0) ∧
    (bm.WF → (free_trailing bm db start fuel).1.WF) := by
  intro fuel
  induction fuel with
  | zero =>
    intro bm db start
    exact ⟨rfl, fun i _ => rfl, fun i h1 h2 h3 => by omega, fun h => h⟩
  | succ n ih =>
    intro bm db start
    unfold free_trailing
    by_cases hs : start < DIRECT_POINTERS
    · rw [if_pos hs]
      by_cases hz : db.getD start 0 ≠ 0
      · rw [if_pos hz]
        obtain ⟨ih1, ih2, ih3, ih4⟩ := ih (bm.set (db.getD start 0) false) (db.set start 0)
          (start + 1)
        refine ⟨by rw [ih1]; simp, ?_, ?_, fun hwf => ih4 (Bitmap.WF_set _ _ _ hwf)⟩
        · intro i hi
          rw [ih2 i (by omega), getD_list_set, if_neg (fun hc => by omega)]
        · intro i h1 h2 h3
          by_cases heq : i = start
          · rw [heq, ih2 start (by omega), getD_list_set,
              if_pos ⟨rfl, getD_pos_lt db start hz⟩]
          · exact ih3 i (by omega) h2 (by omega)
      · rw [if_neg hz]
        obtain ⟨ih1, ih2, ih3, ih4⟩ := ih bm db (start + 1)
        refine ⟨ih1, fun i hi => ih2 i (by omega), ?_, ih4⟩
        intro i h1 h2 h3
        by_cases heq : i = start
        · rw [heq, ih2 start (by omega)]
          simpa using hz
        · exact ih3 i (by omega) h2 (by omega)
    · rw [if_neg hs]
      exact ⟨rfl, fun i _ => rfl, fun i h1 h2 h3 => by omega, fun h => h⟩

theorem free_trailing_id : ∀ (fuel : Nat) (bm : Bitmap) (db : List Nat) (start : Nat),
    (∀ i, start ≤ i → i < DIRECT_POINTERS → db.getD i 0 = 0) →
    free_trailing bm db start fuel = (bm, db) := by
  intro fuel
  induction fuel with
  | zero => intro bm db start h; rfl
  | succ n ih =>
    intro bm db start h
    unfold free_trailing
    by_cases hs : start < DIRECT_POINTERS
    · rw [if_pos hs, if_neg (by simpa using h start le_rfl hs)]
      exact ih bm db (start + 1) (fun i h1 h2 => h i (by omega) h2)
    · rw [if_neg hs]

private theorem read_go_cons (st : Store) (hd : Nat) (tl : List Nat) :
    read_inode_data_go st (hd :: tl) =
      if hd = 0 then []
      else match storeGet st hd with
        | none => read_inode_data_go st tl
        | some plain => plain ++ read_inode_data_go st tl := rfl

theorem read_go_chunks (st : Store) :
    ∀ (cs : List (List Nat)) (l : List Nat),
      cs.length ≤ l.length →
      (∀ k, k < cs.length → l.getD k 0 ≠ 0 ∧ storeGet st (l.getD k 0) = some (cs.getD k [])) →
      read_inode_data_go st l = cs.flatten ++ read_inode_data_go st (l.drop cs.length) := by
  intro cs
  induction cs with
  | nil => intro l _ _; rfl
  | cons c cs ih =>
    intro l hlen hk
    rcases l with _ | ⟨hd, tl⟩
    · simp at hlen
    · obtain ⟨hne, hst⟩ := hk 0 (by simp)
      simp only [List.getD_cons_zero] at hne hst
      have hrec := ih tl (by simpa using hlen)
        (fun k hk' => by simpa using hk (k + 1) (by simpa using hk'))
      rw [read_go_cons, if_neg hne, hst, hrec]
      simp

private theorem lookup_cacheInsert_filter (m : List (Nat × Inode)) (k x : Nat) (h : x ≠ k) :
    List.lookup x (m.filter (fun p => p.1 != k)) = List.lookup x m := by
  induction m with
  | nil => rfl
  | cons hd tl ih =>
    rcases hd with ⟨a, v⟩
    by_cases ha : a = k
    · rw [List.filter_cons_of_neg (by simpa using ha), ih,
        lookup_cons_ne_inode a x v tl (by omega)]
    · rw [List.filter_cons_of_pos (by simpa using ha)]
      by_cases hx : x = a
      · subst hx
        simp
      · rw [lookup_cons_ne_inode a x v _ hx, lookup_cons_ne_inode a x v tl hx]
        exact ih

theorem lookup_cacheInsert (k x : Nat) (v : Inode) (m : List (Nat × Inode)) :
    List.lookup x (cacheInsert k v m) = if x = k then some v else List.lookup x m := by
  unfold cacheInsert
  by_cases h : x = k
  · subst h
    simp
  · rw [if_neg h, lookup_cons_ne_inode k x v _ h]
    exact lookup_cacheInsert_filter m k x h

theorem lookup_cacheRemove (k x : Nat) (m : List (Nat × Inode)) :
    List.lookup x (cacheRemove k m) = if x = k then none else List.lookup x m := by
  unfold cacheRemove
  by_cases h : x = k
  · subst h
    rw [if_pos rfl]
    apply lookup_eq_none_of_not_mem
    intro hmem
    rcases List.mem_map.1 hmem with ⟨p, hp, hfst⟩
    have := List.of_mem_filter hp
    simp only [bne_iff_ne, ne_eq] at this
    exact this (by rw [hfst])
  · rw [if_neg h]
    exact lookup_cacheInsert_filter m k x h

theorem Bitmap.get_mono_set_true (bm : Bitmap) (hwf : bm.WF) (b x : Nat)
    (hx : bm.get x = true) : (bm.set b true).get x = true := by
  rw [Bitmap.get_set bm hwf b x true]
  split
  · rfl
  · exact hx

/-- The postcondition of a successful run of the chunk-writing loop, relative
to the loop's entry state. -/
structure WCPost (bmStart itStart : Nat) (bm : Bitmap) (st : Store) (db : List Nat)
    (ptr : Nat) (tr : List PEvent) (cs : List (List Nat)) (bm' : Bitmap) (st' : Store)
    (db' : List Nat) (ptr' : Nat) (tr' : List PEvent) : Prop where
  hptr : ptr' = ptr + cs.length
  hwf : bm'.WF
  hlen : db'.length = db.length
  hmono : ∀ x, bm.get x = true → bm'.get x = true
  huntouched : ∀ i, i < ptr ∨ ptr' ≤ i → db'.getD i 0 = db.getD i 0
  hslot : ∀ k, k < cs.length →
    db'.getD (ptr + k) 0 ≠ 0 ∧
    bm'.get (db'.getD (ptr + k) 0) = true ∧
    db'.getD (ptr + k) 0 ≠ bmStart ∧ db'.getD (ptr + k) 0 ≠ itStart ∧
    storeGet st' (db'.getD (ptr + k) 0) = some (cs.getD k [])
  horigin : ∀ k, k < cs.length →
    db'.getD (ptr + k) 0 = db.getD (ptr + k) 0 ∨ bm.get (db'.getD (ptr + k) 0) = false
  hframe : ∀ x, x ≠ bmStart → (∀ k, k < cs.length → x ≠ db'.getD (ptr + k) 0) →
    storeGet st' x = storeGet st x
  htr : ∀ e, e ∈ tr' → e ∈ tr ∨
    (∃ bmx, e = PEvent.pbm bmx ∧ ∀ x, bm.get x = true → bmx.get x = true) ∨
    (∃ bid cc, e = PEvent.pdata bid cc)
  hple : ptr ≤ DIRECT_POINTERS → ptr' ≤ DIRECT_POINTERS

theorem write_chunks_spec (bmStart itStart : Nat) :
    ∀ (cs : List (List Nat)) (bm : Bitmap) (st : Store) (db : List Nat) (ptr : Nat)
      (tr : List PEvent) (bm' : Bitmap) (st' : Store) (db' : List Nat) (ptr' : Nat)
      (tr' : List PEvent),
      write_chunks bmStart bm st db ptr cs tr = .ok (bm', st', db', ptr', tr') →
      bm.WF → db.length = DIRECT_POINTERS →
      bm.get 0 = true → bm.get bmStart = true → bm.get itStart = true →
      (∀ i, ptr ≤ i → db.getD i 0 ≠ 0 →
        bm.get (db.getD i 0) = true ∧ db.getD i 0 ≠ bmStart ∧ db.getD i 0 ≠ itStart) →
      (∀ i j, ptr ≤ i → ptr ≤ j → i ≠ j → db.getD i 0 ≠ 0 →
        db.getD i 0 ≠ db.getD j 0) →
      WCPost bmStart itStart bm st db ptr tr cs bm' st' db' ptr' tr' := by
  intro cs
  induction cs with
  | nil =>
    intro bm st db ptr tr bm' st' db' ptr' tr' hok hwf hdlen h0 hbs hits hslots hpair
    simp only [write_chunks, Except.ok.injEq, Prod.mk.injEq] at hok
    obtain ⟨rfl, rfl, rfl, rfl, rfl⟩ := hok
    exact {
      hptr := by simp
      hwf := hwf
      hlen := rfl
      hmono := fun x h => h
      huntouched := fun i _ => rfl
      hslot := fun k hk => absurd hk (by simp)
      horigin := fun k hk => absurd hk (by simp)
      hframe := fun x _ _ => rfl
      htr := fun e he => Or.inl he
      hple := fun h => h }
  | cons c cs ih =>
    intro bm st db ptr tr bm' st' db' ptr' tr' hok hwf hdlen h0 hbs hits hslots hpair
    simp only [write_chunks] at hok
    by_cases hp : ptr ≥ DIRECT_POINTERS
    · rw [if_pos hp] at hok
      exact absurd hok (by simp)
    · rw [if_neg hp] at hok
      by_cases hz : db.getD ptr 0 = 0
      · rw [if_pos hz] at hok
        rcases halloc : bm.allocate with ⟨ores, bmA⟩
        rw [halloc] at hok
        cases ores with
        | none => exact absurd hok (by simp)
        | some b =>
          simp only at hok
          obtain ⟨hbsize, hbfree, hbmA⟩ := Bitmap.allocate_some bm b bmA halloc
          subst hbmA
          have hbne0 : b ≠ 0 := by
            rintro rfl
            rw [h0] at hbfree
            exact absurd hbfree (by simp)
          have hbnebs : b ≠ bmStart := by
            rintro rfl
            rw [hbs] at hbfree
            exact absurd hbfree (by simp)
          have hbneits : b ≠ itStart := by
            rintro rfl
            rw [hits] at hbfree
            exact absurd hbfree (by simp)
          have hwfA : (bm.set b true).WF := Bitmap.WF_set _ _ _ hwf
          have hmonoA : ∀ x, bm.get x = true → (bm.set b true).get x = true :=
            fun x hx => Bitmap.get_mono_set_true bm hwf b x hx
          have hgetAb : (bm.set b true).get b = true :=
            Bitmap.get_set_self bm hwf b true hbsize
          have hdlenA : (db.set ptr b).length = DIRECT_POINTERS := by simp [hdlen]
          have hsetne : ∀ i, ptr + 1 ≤ i → (db.set ptr b).getD i 0 = db.getD i 0 := by
            intro i hi
            rw [getD_list_set, if_neg (fun hc => by omega)]
          have hslotsA : ∀ i, ptr + 1 ≤ i → (db.set ptr b).getD i 0 ≠ 0 →
              (bm.set b true).get ((db.set ptr b).getD i 0) = true ∧
              (db.set ptr b).getD i 0 ≠ bmStart ∧ (db.set ptr b).getD i 0 ≠ itStart := by
            intro i hi hne
            rw [hsetne i hi] at hne ⊢
            obtain ⟨hm, hb1, hb2⟩ := hslots i (by omega) hne
            exact ⟨hmonoA _ hm, hb1, hb2⟩
          have hpairA : ∀ i j, ptr + 1 ≤ i → ptr + 1 ≤ j → i ≠ j →
              (db.set ptr b).getD i 0 ≠ 0 →
              (db.set ptr b).getD i 0 ≠ (db.set ptr b).getD j 0 := by
            intro i j hi hj hij hne
            rw [hsetne i hi] at hne ⊢
            rw [hsetne j hj]
            exact hpair i j (by omega) (by omega) hij hne
          have post := ih _ _ _ _ _ _ _ _ _ _ hok hwfA hdlenA (hmonoA 0 h0)
            (hmonoA bmStart hbs) (hmonoA itStart hits) hslotsA hpairA
          have hdbptr : db'.getD ptr 0 = b := by
            rw [post.huntouched ptr (Or.inl (by omega)), getD_list_set,
              if_pos ⟨rfl, by omega⟩]
          have hrecne : ∀ k, k < cs.length → db'.getD (ptr + 1 + k) 0 ≠ b := by
            intro k hk hceq
            rcases post.horigin k hk with hkeep | hclear
            · rw [hceq] at hkeep
              rw [hsetne (ptr + 1 + k) (by omega)] at hkeep
              have hne0 : db.getD (ptr + 1 + k) 0 ≠ 0 := by
                rw [← hkeep]
                exact hbne0
              obtain ⟨hm, -, -⟩ := hslots (ptr + 1 + k) (by omega) hne0
              rw [← hkeep] at hm
              rw [hm] at hbfree
              exact absurd hbfree (by simp)
            · rw [hceq, hgetAb] at hclear
              exact absurd hclear (by simp)
          refine {
            hptr := by rw [post.hptr, List.length_cons]; omega
            hwf := post.hwf
            hlen := by rw [post.hlen]; simp
            hmono := fun x hx => post.hmono x (hmonoA x hx)
            huntouched := ?_
            hslot := ?_
            horigin := ?_
            hframe := ?_
            htr := ?_
            hple := ?_ }
          · intro i hi
            have hne : i ≠ ptr := by
              rcases hi with hi | hi
              · omega
              · have := post.hptr
                omega
            have h1 : db'.getD i 0 = (db.set ptr b).getD i 0 := by
              apply post.huntouched
              rcases hi with hi | hi
              · exact Or.inl (by omega)
              · exact Or.inr hi
            rw [h1, getD_list_set, if_neg (fun hc => hne hc.1.symm)]
          · intro k hk
            rcases k with _ | k'
            · refine ⟨by rw [Nat.add_zero, hdbptr]; exact hbne0,
                by rw [Nat.add_zero, hdbptr]; exact post.hmono b hgetAb,
                by rw [Nat.add_zero, hdbptr]; exact hbnebs,
                by rw [Nat.add_zero, hdbptr]; exact hbneits, ?_⟩
              rw [Nat.add_zero, hdbptr]
              have hfr := post.hframe b hbnebs (fun k hk => Ne.symm (hrecne k hk))
              rw [hfr, storeGet_storeSet, if_pos rfl]
              rfl
            · have hk' : k' < cs.length := by simpa using hk
              have hidx : ptr + (k' + 1) = ptr + 1 + k' := by omega
              have hs := post.hslot k' hk'
              rw [hidx]
              exact ⟨hs.1, hs.2.1, hs.2.2.1, hs.2.2.2.1, hs.2.2.2.2⟩
          · intro k hk
            rcases k with _ | k'
            · right
              rw [Nat.add_zero, hdbptr]
              exact hbfree
            · have hk' : k' < cs.length := by simpa using hk
              rw [show ptr + (k' + 1) = ptr + 1 + k' by omega]
              rcases post.horigin k' hk' with hkeep | hclear
              · left
                rw [hkeep, hsetne (ptr + 1 + k') (by omega)]
              · right
                by_contra hcon
                simp only [Bool.not_eq_false] at hcon
                rw [hmonoA _ hcon] at hclear
                exact absurd hclear (by simp)
          · intro x hxbs hxslots
            have hxb : x ≠ b := by
              have := hxslots 0 (by simp)
              rwa [Nat.add_zero, hdbptr] at this
            have hfr := post.hframe x hxbs (fun k hk => by
              have := hxslots (k + 1) (by simpa using hk)
              rwa [show ptr + (k + 1) = ptr + 1 + k by omega] at this)
            rw [hfr, storeGet_storeSet, if_neg hxb, storeGet_storeSet, if_neg hxbs]
          · intro e he
            rcases post.htr e he with hin | hrest
            · rcases List.mem_append.1 hin with hin' | hnew
              · exact Or.inl hin'
              · rcases List.mem_cons.1 hnew with rfl | hnew'
                · exact Or.inr (Or.inl ⟨bm.set b true, rfl, hmonoA⟩)
                · rcases List.mem_cons.1 hnew' with rfl | habs
                  · exact Or.inr (Or.inr ⟨b, c, rfl⟩)
                  · exact absurd habs (by simp)
            · rcases hrest with ⟨bmx, rfl, hmx⟩ | hdata
              · exact Or.inr (Or.inl ⟨bmx, rfl, fun x hx => hmx x (hmonoA x hx)⟩)
              · exact Or.inr (Or.inr hdata)
          · intro hptrle
            apply post.hple
            omega
      · rw [if_neg hz] at hok
        obtain ⟨hbidm, hbidbs, hbidits⟩ := hslots ptr le_rfl hz
        have hslotsA : ∀ i, ptr + 1 ≤ i → db.getD i 0 ≠ 0 →
            bm.get (db.getD i 0) = true ∧ db.getD i 0 ≠ bmStart ∧ db.getD i 0 ≠ itStart :=
          fun i hi hne => hslots i (by omega) hne
        have hpairA : ∀ i j, ptr + 1 ≤ i → ptr + 1 ≤ j → i ≠ j → db.getD i 0 ≠ 0 →
            db.getD i 0 ≠ db.getD j 0 :=
          fun i j hi hj hij hne => hpair i j (by omega) (by omega) hij hne
        have post := ih _ _ _ _ _ _ _ _ _ _ hok hwf hdlen h0 hbs hits hslotsA hpairA
        have hdbptr : db'.getD ptr 0 = db.getD ptr 0 :=
          post.huntouched ptr (Or.inl (by omega))
        have hrecne : ∀ k, k < cs.length → db'.getD (ptr + 1 + k) 0 ≠ db.getD ptr 0 := by
          intro k hk hceq
          rcases post.horigin k hk with hkeep | hclear
          · have heq2 : db.getD ptr 0 = db.getD (ptr + 1 + k) 0 := by
              rw [← hceq, hkeep]
            exact absurd heq2 (hpair ptr (ptr + 1 + k) le_rfl (by omega) (by omega) hz)
          · rw [hceq, hbidm] at hclear
            exact absurd hclear (by simp)
        refine {
          hptr := by rw [post.hptr, List.length_cons]; omega
          hwf := post.hwf
          hlen := post.hlen
          hmono := post.hmono
          huntouched := ?_
          hslot := ?_
          horigin := ?_
          hframe := ?_
          htr := ?_
          hple := ?_ }
        · intro i hi
          apply post.huntouched
          rcases hi with hi | hi
          · exact Or.inl (by omega)
          · exact Or.inr hi
        · intro k hk
          rcases k with _ | k'
          · refine ⟨by rw [Nat.add_zero, hdbptr]; exact hz,
              by rw [Nat.add_zero, hdbptr]; exact post.hmono _ hbidm,
              by rw [Nat.add_zero, hdbptr]; exact hbidbs,
              by rw [Nat.add_zero, hdbptr]; exact hbidits, ?_⟩
            rw [Nat.add_zero, hdbptr]
            have hfr := post.hframe (db.getD ptr 0) hbidbs
              (fun k hk => Ne.symm (hrecne k hk))
            rw [hfr, storeGet_storeSet, if_pos rfl]
            rfl
          · have hk' : k' < cs.length := by simpa using hk
            rw [show ptr + (k' + 1) = ptr + 1 + k' by omega]
            have hs := post.hslot k' hk'
            exact ⟨hs.1, hs.2.1, hs.2.2.1, hs.2.2.2.1, hs.2.2.2.2⟩
        · intro k hk
          rcases k with _ | k'
          · left
            rw [Nat.add_zero, hdbptr]
          · have hk' : k' < cs.length := by simpa using hk
            rw [show ptr + (k' + 1) = ptr + 1 + k' by omega]
            exact post.horigin k' hk'
        · intro x hxbs hxslots
          have hxbid : x ≠ db.getD ptr 0 := by
            have := hxslots 0 (by simp)
            rwa [Nat.add_zero, hdbptr] at this
          have hfr := post.hframe x hxbs (fun k hk => by
            have := hxslots (k + 1) (by simpa using hk)
            rwa [show ptr + (k + 1) = ptr + 1 + k by omega] at this)
          rw [hfr, storeGet_storeSet, if_neg hxbid]
        · intro e he
          rcases post.htr e he with hin | hrest
          · rcases List.mem_append.1 hin with hin' | hnew
            · exact Or.inl hin'
            · rcases List.mem_cons.1 hnew with rfl | habs
              · exact Or.inr (Or.inr ⟨db.getD ptr 0, c, rfl⟩)
              · exact absurd habs (by simp)
          · exact Or.inr hrest
        · intro hptrle
          apply post.hple
          omega

/-- C1 (claim): for a live inode of a well-formed volume state and any payload
`D` with `|D| ≤ DIRECT_POINTERS × 900 = 10800` bytes, a successful
`write(ino, 0, D)` followed by `read(ino, 0, |D|)` returns exactly `D` (the
block device and crypto engine being modelled as faithful).  The
well-formedness hypotheses are the volume invariants of spec §3: metadata
blocks and all blocks referenced by the inode are marked allocated, data
blocks do not alias the metadata blocks, and the inode's non-zero block list
has no duplicates. -/
theorem C1_write_read_roundtrip (s : FSState) (ino : Nat) (inode : Inode) (D : List Nat)
    (now : Nat) (s' : FSState) (tr : List PEvent)
    (hino : List.lookup ino s.inodes = some inode)
    (hwfbm : s.bitmap.WF)
    (hb0 : s.bitmap.get 0 = true)
    (hbs : s.bitmap.get s.sb.bitmap_start = true)
    (hits : s.bitmap.get s.sb.inode_table_start = true)
    (hdb_len : inode.direct_blocks.length = DIRECT_POINTERS)
    (hdb_ok : ∀ i, inode.direct_blocks.getD i 0 ≠ 0 →
      s.bitmap.get (inode.direct_blocks.getD i 0) = true ∧
      inode.direct_blocks.getD i 0 ≠ s.sb.bitmap_start ∧
      inode.direct_blocks.getD i 0 ≠ s.sb.inode_table_start)
    (hdb_nodup : ∀ i j, i ≠ j → inode.direct_blocks.getD i 0 ≠ 0 →
      inode.direct_blocks.getD i 0 ≠ inode.direct_blocks.getD j 0)
    (_hsize : D.length ≤ DIRECT_POINTERS * CHUNK_SIZE)
    (hwrite : write_inode_data s ino D now = .ok (s', tr)) :
    read_op s' ino 0 D.length = .ok D := by
  unfold write_inode_data at hwrite
  rw [hino] at hwrite
  dsimp only at hwrite
  rcases hwc : write_chunks s.sb.bitmap_start s.bitmap s.store inode.direct_blocks 0
      (chunks900 D) [] with e | ⟨bm1, st1, db1, ptr, tr1⟩
  · rw [hwc] at hwrite
    exact absurd hwrite (by simp)
  · rw [hwc] at hwrite
    dsimp only at hwrite
    simp only [Except.ok.injEq, Prod.mk.injEq] at hwrite
    obtain ⟨rfl, rfl⟩ := hwrite
    have post := write_chunks_spec s.sb.bitmap_start s.sb.inode_table_start (chunks900 D)
      s.bitmap s.store inode.direct_blocks 0 [] bm1 st1 db1 ptr tr1 hwc hwfbm hdb_len
      hb0 hbs hits (fun i _ hne => hdb_ok i hne)
      (fun i j _ _ hij hne => hdb_nodup i j hij hne)
    obtain ⟨ft1, ft2, ft3, ft4⟩ :=
      free_trailing_spec (DIRECT_POINTERS - (ptr + 1)) bm1 db1 (ptr + 1)
    have hn : ptr = (chunks900 D).length := by
      have := post.hptr
      omega
    have hple : ptr ≤ DIRECT_POINTERS := post.hple (Nat.zero_le _)
    have hlen1 : db1.length = DIRECT_POINTERS := by
      rw [post.hlen, hdb_len]
    show read_op _ ino 0 D.length = .ok D
    unfold read_op read_inode_data
    dsimp only
    rw [lookup_cacheInsert]
    rw [if_pos rfl]
    dsimp only
    have hslots2 : ∀ k, k < (chunks900 D).length →
        (free_trailing bm1 db1 (ptr + 1) (DIRECT_POINTERS - (ptr + 1))).2.getD k 0 ≠ 0 ∧
        storeGet (storeSet
            (storeSet st1 s.sb.bitmap_start
              (bincode_bitmap (free_trailing bm1 db1 (ptr + 1)
                (DIRECT_POINTERS - (ptr + 1))).1))
            s.sb.inode_table_start
            (bincode_inode_table (sync_inode_list
              (cacheInsert ino
                { mode := inode.mode, size := D.length, file_type := inode.file_type,
                  created_at := inode.created_at, modified_at := now,
                  direct_blocks := (free_trailing bm1 db1 (ptr + 1)
                    (DIRECT_POINTERS - (ptr + 1))).2,
                  indirect_block := inode.indirect_block } s.inodes)
              ino
              { mode := inode.mode, size := D.length, file_type := inode.file_type,
                created_at := inode.created_at, modified_at := now,
                direct_blocks := (free_trailing bm1 db1 (ptr + 1)
                  (DIRECT_POINTERS - (ptr + 1))).2,
                indirect_block := inode.indirect_block })))
          ((free_trailing bm1 db1 (ptr + 1) (DIRECT_POINTERS - (ptr + 1))).2.getD k 0) =
          some ((chunks900 D).getD k []) := by
      intro k hk
      have hkeep : (free_trailing bm1 db1 (ptr + 1) (DIRECT_POINTERS - (ptr + 1))).2.getD k 0 =
          db1.getD k 0 := ft2 k (by omega)
      have hs := post.hslot k hk
      simp only [Nat.zero_add] at hs
      obtain ⟨h1, h2, h3, h4, h5⟩ := hs
      refine ⟨by rw [hkeep]; exact h1, ?_⟩
      rw [hkeep, storeGet_storeSet, if_neg h4, storeGet_storeSet, if_neg h3]
      exact h5
    have hgo := read_go_chunks _ (chunks900 D)
      (free_trailing bm1 db1 (ptr + 1) (DIRECT_POINTERS - (ptr + 1))).2
      (by rw [ft1]; omega) hslots2
    rw [hgo, chunks900_flatten]
    set tail := read_inode_data_go _
      ((free_trailing bm1 db1 (ptr + 1) (DIRECT_POINTERS - (ptr + 1))).2.drop
        (chunks900 D).length) with htail
    have hdata : (if (D ++ tail).length > D.length
        then (D ++ tail).take D.length else D ++ tail) = D := by
      by_cases hT : (D ++ tail).length > D.length
      · rw [if_pos hT, List.take_left' rfl]
      · rw [if_neg hT]
        have hta : tail.length = 0 := by
          simp only [List.length_append] at hT
          omega
        rw [List.length_eq_zero] at hta
        rw [hta, List.append_nil]
    rw [hdata]
    by_cases hD : D.length = 0
    · rw [if_pos (by omega)]
      rw [List.length_eq_zero] at hD
      rw [hD]
    · rw [if_neg (by omega)]
      simp

/-! Concrete volume state used by the C1 and C3 witnesses: an 8-block volume
(metadata blocks 0,1,2 and root data block 3 allocated), a root directory at
index 1 and an empty regular file at index 2. -/

def sbC : SuperBlock :=
  { magic := QRFS_MAGIC, total_blocks := 8, total_inodes := 5, free_blocks_count := 3,
    inode_table_start := 2, bitmap_start := 1, root_dir_inode := 1, uuid := [] }

def fileC : Inode := Inode.new .file 420 0

def sC : FSState :=
  { sb := sbC, bitmap := ⟨[15], 8⟩, store := [],
    inodes := [(1, Inode.new .directory 493 0), (2, fileC)] }

def s1C : FSState :=
  match write_inode_data sC 2 [7] 0 with
  | .ok (s1, _) => s1
  | .error _ => sC

def tr1C : List PEvent :=
  match write_inode_data sC 2 [7] 0 with
  | .ok (_, tr) => tr
  | .error _ => []

/-- Witness for C1: on the concrete volume, writing the one-byte payload `[7]`
to inode 2 and reading one byte back returns `[7]`. -/
theorem C1_write_read_roundtrip_witness : read_op s1C 2 0 1 = .ok [7] := by
  have hz : ∀ i, fileC.direct_blocks.getD i 0 = 0 := by
    intro i
    simp only [fileC, Inode.new, List.getD_eq_getElem?_getD, List.getElem?_replicate]
    split <;> rfl
  exact C1_write_read_roundtrip sC 2 fileC [7] 0 s1C tr1C (by decide) (by decide)
    (by decide) (by decide) (by decide) (by decide)
    (fun i h => absurd (hz i) h)
    (fun i j hij h => absurd (hz i) h)
    (by decide)
    (by rfl)

/-! ## C4: the trailing-slot free loop skips slot k+1

`write_inode_data` frees trailing slots starting at `block_ptr_idx + 1`,
where `block_ptr_idx` already points one past the last written chunk. -/

/-- A volume whose inode 2 currently owns blocks 5 and 6 (bits 0–6 set). -/
def s4C : FSState :=
  { sb := sbC, bitmap := ⟨[127], 8⟩, store := [(5, [1]), (6, [2])],
    inodes := [(1, Inode.new .directory 493 0),
      (2, { mode := 420, size := 1800, file_type := .file, created_at := 0,
            modified_at := 0, direct_blocks := [5, 6, 0, 0, 0, 0, 0, 0, 0, 0, 0, 0],
            indirect_block := 0 })] }

def s4resS : FSState :=
  match write_inode_data s4C 2 [9] 0 with
  | .ok (s1, _) => s1
  | .error _ => s4C

def tr4C : List PEvent :=
  match write_inode_data s4C 2 [9] 0 with
  | .ok (_, tr) => tr
  | .error _ => []

/-- C4 (code_bug evaluation): writing the 1-byte payload `[9]` (last chunk
index k = 0) to an inode holding blocks `[5, 6, 0, …]` succeeds, yet slot
k+1 = 1 still holds block 6 and block 6 is still allocated in the bitmap —
the claim (and the code's own intent of freeing the leftover blocks) requires
slot 1 to be cleared to 0 and block 6 to be freed.  The loop
`for i in block_ptr_idx+1..DIRECT_POINTERS` starts one slot too late. -/
theorem C4_trailing_slot_not_freed :
    write_inode_data s4C 2 [9] 0 = .ok (s4resS, tr4C) ∧
    (match List.lookup 2 s4resS.inodes with
      | some ino => ino.direct_blocks.getD 1 0
      | none => 0) = 6 ∧
    s4resS.bitmap.get 6 = true :=
  ⟨rfl, by decide, by decide⟩

/-! ## C3: crash states of the persistence sequences -/

/-- The bitmap on the medium after a prefix of the persistence events
(starting from the on-disk bitmap `bm0`). -/
def lastBM (bm0 : Bitmap) (tr : List PEvent) : Bitmap :=
  tr.foldl (fun acc e => match e with | .pbm b => b | _ => acc) bm0

/-- The record of inode `inode_idx` on the medium after a prefix of the
persistence events (starting from its on-disk record `i0`). -/
def lastIno (inode_idx : Nat) (i0 : Inode) (tr : List PEvent) : Inode :=
  tr.foldl (fun acc e => match e with
    | .ptbl j ino => if j = inode_idx then ino else acc
    | _ => acc) i0

/-- No corruption-class discrepancy: every non-zero block id of the
last-persisted inode record is still marked allocated in the last-persisted
bitmap. -/
def inodeBitmapOK (bm : Bitmap) (ino : Inode) : Prop :=
  ∀ b, b ∈ ino.direct_blocks → b ≠ 0 → bm.get b = true

/-- Crash safety of a persistence sequence: `inodeBitmapOK` holds after every
prefix of the event list. -/
def noCorruption (inode_idx : Nat) (bm0 : Bitmap) (i0 : Inode) (tr : List PEvent) : Prop :=
  ∀ n, inodeBitmapOK (lastBM bm0 (tr.take n)) (lastIno inode_idx i0 (tr.take n))

/-- The victim inode of the C3 counterexample: a live file owning block 5. -/
def ino3C : Inode :=
  { mode := 420, size := 5, file_type := .file, created_at := 0, modified_at := 0,
    direct_blocks := [5, 0, 0, 0, 0, 0, 0, 0, 0, 0, 0, 0], indirect_block := 0 }

/-- A volume with bits 0,1,2,3,5 set whose inode 2 owns block 5; the on-disk
inode record equals the cached one. -/
def s3C : FSState :=
  { sb := sbC, bitmap := ⟨[47], 8⟩, store := [(5, [1, 2, 3, 4, 5])],
    inodes := [(1, Inode.new .directory 493 0), (2, ino3C)] }

/-- C3 (counterexample): the freeing path of unlink/rmdir
(`free_inode_resources`) persists the bitmap with the victim's bits cleared
BEFORE persisting the zeroed inode record, so the crash point between the two
persists (prefix length 1 of the event sequence) leaves the on-disk inode
record still referencing block 5 while the on-disk bitmap marks block 5 free
— exactly a corruption-class discrepancy. -/
theorem C3_crash_corruption_on_free :
    ¬ noCorruption 2 s3C.bitmap ino3C (free_inode_resources s3C 2).2 := fun h =>
  absurd (h 1 5 (by decide) (by decide)) (by decide)

private theorem lastBM_mono (P : Bitmap → Prop) :
    ∀ (l : List PEvent) (bm0 : Bitmap), P bm0 →
      (∀ bmx, PEvent.pbm bmx ∈ l → P bmx) → P (lastBM bm0 l) := by
  intro l
  induction l with
  | nil => intro bm0 h0 _; exact h0
  | cons e l' ih =>
    intro bm0 h0 hall
    cases e with
    | pbm b =>
      exact ih b (hall b (List.mem_cons_self _ _))
        (fun bmx hm => hall bmx (List.mem_cons_of_mem _ hm))
    | pdata bid c =>
      exact ih bm0 h0 (fun bmx hm => hall bmx (List.mem_cons_of_mem _ hm))
    | ptbl j ino =>
      exact ih bm0 h0 (fun bmx hm => hall bmx (List.mem_cons_of_mem _ hm))

private theorem lastIno_id (idx : Nat) :
    ∀ (l : List PEvent) (i0 : Inode),
      (∀ j ino, PEvent.ptbl j ino ∈ l → False) → lastIno idx i0 l = i0 := by
  intro l
  induction l with
  | nil => intro i0 _; rfl
  | cons e l' ih =>
    intro i0 hall
    cases e with
    | pbm b => exact ih i0 (fun j ino hm => hall j ino (List.mem_cons_of_mem _ hm))
    | pdata bid c => exact ih i0 (fun j ino hm => hall j ino (List.mem_cons_of_mem _ hm))
    | ptbl j ino => exact absurd (List.mem_cons_self _ _) (fun hm => hall j ino hm)

private theorem mem_getD_of_mem (l : List Nat) (b : Nat) (hb : b ∈ l) :
    ∃ k, k < l.length ∧ l.getD k 0 = b := by
  rcases List.mem_iff_getElem.1 hb with ⟨k, hk, hget⟩
  exact ⟨k, hk, by simp [List.getD_eq_getElem?_getD, List.getElem?_eq_getElem hk, hget]⟩

/-- C3 (amended): for a write that frees no trailing block (the payload's
chunks cover every previously used slot except possibly the stale slot k+1),
every crash prefix of the persistence sequence is corruption-free: during the
chunk loop only freshly allocated bits are added to the persisted bitmap
while the on-disk inode record is unchanged, and the final inode record is
persisted after the bitmap that marks all its blocks.  (The freeing paths —
trailing-slot frees and unlink/rmdir — do NOT satisfy this; see the
counterexample.) -/
theorem C3_write_no_free_crash_safe (s : FSState) (ino : Nat) (inode : Inode)
    (D : List Nat) (now : Nat) (s' : FSState) (tr : List PEvent)
    (hino : List.lookup ino s.inodes = some inode)
    (hwfbm : s.bitmap.WF)
    (hb0 : s.bitmap.get 0 = true)
    (hbs : s.bitmap.get s.sb.bitmap_start = true)
    (hits : s.bitmap.get s.sb.inode_table_start = true)
    (hdb_len : inode.direct_blocks.length = DIRECT_POINTERS)
    (hdb_ok : ∀ i, inode.direct_blocks.getD i 0 ≠ 0 →
      s.bitmap.get (inode.direct_blocks.getD i 0) = true ∧
      inode.direct_blocks.getD i 0 ≠ s.sb.bitmap_start ∧
      inode.direct_blocks.getD i 0 ≠ s.sb.inode_table_start)
    (hdb_nodup : ∀ i j, i ≠ j → inode.direct_blocks.getD i 0 ≠ 0 →
      inode.direct_blocks.getD i 0 ≠ inode.direct_blocks.getD j 0)
    (hnofree : ∀ i, (chunks900 D).length + 1 ≤ i → i < DIRECT_POINTERS →
      inode.direct_blocks.getD i 0 = 0)
    (hwrite : write_inode_data s ino D now = .ok (s', tr)) :
    noCorruption ino s.bitmap inode tr := by
  unfold write_inode_data at hwrite
  rw [hino] at hwrite
  dsimp only at hwrite
  rcases hwc : write_chunks s.sb.bitmap_start s.bitmap s.store inode.direct_blocks 0
      (chunks900 D) [] with e | ⟨bm1, st1, db1, ptr, tr1⟩
  · rw [hwc] at hwrite
    exact absurd hwrite (by simp)
  · rw [hwc] at hwrite
    dsimp only at hwrite
    have post := write_chunks_spec s.sb.bitmap_start s.sb.inode_table_start (chunks900 D)
      s.bitmap s.store inode.direct_blocks 0 [] bm1 st1 db1 ptr tr1 hwc hwfbm hdb_len
      hb0 hbs hits (fun i _ hne => hdb_ok i hne)
      (fun i j _ _ hij hne => hdb_nodup i j hij hne)
    have hn : ptr = (chunks900 D).length := by
      have := post.hptr
      omega
    have hlen1 : db1.length = DIRECT_POINTERS := by
      rw [post.hlen, hdb_len]
    have hfr : free_trailing bm1 db1 (ptr + 1) (DIRECT_POINTERS - (ptr + 1)) = (bm1, db1) := by
      apply free_trailing_id
      intro i h1 h2
      rw [post.huntouched i (Or.inr (by omega))]
      exact hnofree i (by omega) h2
    rw [hfr] at hwrite
    simp only [Except.ok.injEq, Prod.mk.injEq] at hwrite
    obtain ⟨-, rfl⟩ := hwrite
    -- the final inode record written by sync_inode
    intro n b hmem hbne
    have hmarked0 : ∀ x, x ∈ inode.direct_blocks → x ≠ 0 → s.bitmap.get x = true := by
      intro x hx hxne
      obtain ⟨k, hk, hgd⟩ := mem_getD_of_mem _ x hx
      exact hgd ▸ (hdb_ok k (by rw [hgd]; exact hxne)).1
    have htr1only : ∀ e, e ∈ tr1 →
        (∃ bmx, e = PEvent.pbm bmx ∧ ∀ x, s.bitmap.get x = true → bmx.get x = true) ∨
        (∃ bid cc, e = PEvent.pdata bid cc) := by
      intro e he
      rcases post.htr e he with habs | hrest
      · exact absurd habs (List.not_mem_nil e)
      · exact hrest
    rw [List.take_append_eq_append_take] at hmem ⊢
    have hbm1P : ∀ x, s.bitmap.get x = true → bm1.get x = true := post.hmono
    have hlastBM1 : ∀ m, ∀ x, s.bitmap.get x = true →
        (lastBM s.bitmap (tr1.take m)).get x = true := by
      intro m
      exact lastBM_mono (fun bm => ∀ x, s.bitmap.get x = true → bm.get x = true)
        (tr1.take m) s.bitmap (fun x h => h)
        (fun bmx hmx => by
          rcases htr1only (PEvent.pbm bmx) (List.take_subset m tr1 hmx) with
            ⟨bmy, heq, hy⟩ | ⟨bid, cc, heq⟩
          · cases heq
            exact hy
          · cases heq)
    have hlastIno1 : ∀ m, lastIno ino inode (tr1.take m) = inode := by
      intro m
      apply lastIno_id
      intro j ino2 hm
      rcases htr1only (PEvent.ptbl j ino2) (List.take_subset m tr1 hm) with
        ⟨bmy, heq, hy⟩ | ⟨bid, cc, heq⟩ <;> cases heq
    simp only [lastBM, lastIno, List.foldl_append] at hmem ⊢
    rcases hm2 : n - tr1.length with _ | _ | m2
    · rw [hm2] at hmem
      simp only [List.take_zero, List.foldl_nil] at hmem ⊢
      show (lastBM s.bitmap (tr1.take n)).get b = true
      have hid : lastIno ino inode (tr1.take n) = inode := hlastIno1 n
      simp only [lastIno] at hid
      rw [hid] at hmem
      exact hlastBM1 n b (hmarked0 b hmem hbne)
    · rw [hm2] at hmem
      simp only [List.take_succ_cons, List.take_zero, List.foldl_cons, List.foldl_nil]
        at hmem ⊢
      show bm1.get b = true
      have hid : lastIno ino inode (tr1.take n) = inode := hlastIno1 n
      simp only [lastIno] at hid
      rw [hid] at hmem
      exact hbm1P b (hmarked0 b hmem hbne)
    · rw [hm2] at hmem
      simp only [List.take_succ_cons, List.take_nil, List.foldl_cons, List.foldl_nil,
        if_pos rfl, if_true] at hmem ⊢
      show bm1.get b = true
      -- hmem: b is a block of the final inode record, whose blocks are db1
      obtain ⟨k, hk, hgd⟩ := mem_getD_of_mem _ b hmem
      rw [hlen1] at hk
      by_cases hkp : k < ptr
      · have hs := post.hslot k (by omega)
        simp only [Nat.zero_add] at hs
        rw [hgd] at hs
        exact hs.2.1
      · have hkeep : db1.getD k 0 = inode.direct_blocks.getD k 0 :=
          post.huntouched k (Or.inr (by omega))
        by_cases hkq : k = ptr
        · have hbeq : inode.direct_blocks.getD k 0 = b := by rw [← hkeep, hgd]
          have hmk := (hdb_ok k (by rw [hbeq]; exact hbne)).1
          rw [hbeq] at hmk
          exact hbm1P b hmk
        · have : inode.direct_blocks.getD k 0 = 0 := hnofree k (by omega) hk
          rw [hkeep, this] at hgd
          exact absurd hgd.symm hbne

/-- Witness for C3's amended theorem: the concrete grow-only write of the C1
witness produces a crash-safe persistence sequence. -/
theorem C3_write_no_free_crash_safe_witness : noCorruption 2 sC.bitmap fileC tr1C := by
  have hz : ∀ i, fileC.direct_blocks.getD i 0 = 0 := by
    intro i
    simp only [fileC, Inode.new, List.getD_eq_getElem?_getD, List.getElem?_replicate]
    split <;> rfl
  exact C3_write_no_free_crash_safe sC 2 fileC [7] 0 s1C tr1C (by decide) (by decide)
    (by decide) (by decide) (by decide) (by decide)
    (fun i h => absurd (hz i) h)
    (fun i j hij h => absurd (hz i) h)
    (fun i h1 h2 => hz i)
    (by rfl)

/-! ## C6: serialization round-trip and directory-operation lemmas -/

/-- Bounds under which the u64 length prefixes of the bincode encoding are
faithful (always true of real states: all quantities fit in a u64). -/
def EntriesWF (l : List DirEntry) : Prop :=
  l.length < 2 ^ 64 ∧ ∀ e ∈ l, e.inode_idx < 2 ^ 64 ∧ e.name.length < 2 ^ 64

private theorem decodeEntriesGo_encode :
    ∀ (l : List DirEntry) (rest : List Nat),
      (∀ e ∈ l, e.inode_idx < 2 ^ 64 ∧ e.name.length < 2 ^ 64) →
      decodeEntriesGo l.length ((l.map encodeEntry).flatten ++ rest) = some (l, rest) := by
  intro l
  induction l with
  | nil => intro rest _; rfl
  | cons e l' ih =>
    intro rest hwf
    obtain ⟨hidx, hname⟩ := hwf e (List.mem_cons_self _ _)
    show decodeEntriesGo (l'.length + 1) _ = _
    unfold decodeEntriesGo
    simp only [List.map_cons, List.flatten_cons, encodeEntry, List.append_assoc]
    rw [if_neg (by simp only [List.length_append, leBytes_length]; omega)]
    rw [List.take_left' (leBytes_length 8 e.inode_idx),
      List.drop_left' (leBytes_length 8 e.inode_idx),
      leVal_leBytes 8 e.inode_idx (by simpa using hidx)]
    rw [if_neg (by simp only [List.length_append, leBytes_length]; omega)]
    rw [List.take_left' (leBytes_length 8 e.name.length),
      List.drop_left' (leBytes_length 8 e.name.length),
      leVal_leBytes 8 e.name.length (by simpa using hname)]
    rw [if_neg (by simp only [List.length_append]; omega)]
    rw [List.take_left' rfl, List.drop_left' rfl]
    rw [ih rest (fun x hx => hwf x (List.mem_cons_of_mem _ hx))]

theorem decodeEntries_encode (l : List DirEntry) (hwf : EntriesWF l) :
    decodeEntries (encodeEntries l) = some l := by
  obtain ⟨hlen, hel⟩ := hwf
  unfold decodeEntries encodeEntries
  have h1 : (leBytes 8 l.length ++ (l.map encodeEntry).flatten).length ≥ 8 := by
    simp [leBytes_length]
  rw [if_neg (by omega)]
  rw [List.take_left' (leBytes_length 8 l.length), List.drop_left' (leBytes_length 8 l.length)]
  rw [leVal_leBytes 8 l.length (by simpa using hlen)]
  rw [show (l.map encodeEntry).flatten = (l.map encodeEntry).flatten ++ [] by simp]
  rw [decodeEntriesGo_encode l [] hel]

theorem encodeEntries_ne_nil (l : List DirEntry) : encodeEntries l ≠ [] := by
  unfold encodeEntries
  intro h
  have := congrArg List.length h
  simp [leBytes_length] at this

/-- Store updates outside an inode's block list do not change its data. -/
private theorem read_go_frame (a : Nat) (v : List Nat) :
    ∀ (l : List Nat) (st : Store), (∀ bid ∈ l, bid ≠ 0 → bid ≠ a) →
      read_inode_data_go (storeSet st a v) l = read_inode_data_go st l := by
  intro l
  induction l with
  | nil => intro st _; rfl
  | cons hd tl ih =>
    intro st hne
    rw [read_go_cons, read_go_cons]
    by_cases hz : hd = 0
    · rw [if_pos hz, if_pos hz]
    · rw [if_neg hz, if_neg hz,
        storeGet_storeSet, if_neg (hne hd (List.mem_cons_self _ _) hz),
        ih st (fun bid hb hbz => hne bid (List.mem_cons_of_mem _ hb) hbz)]

private theorem lookup_go_cons (inodes : List (Nat × Inode)) (name : List Nat)
    (e : DirEntry) (rest : List DirEntry) :
    lookup_go inodes name (e :: rest) =
      if e.name = name then
        (match List.lookup e.inode_idx inodes with
          | some ino => .ok (e.inode_idx, ino)
          | none => lookup_go inodes name rest)
      else lookup_go inodes name rest := rfl

private theorem lookup_go_skip (inodes : List (Nat × Inode)) (name : List Nat) :
    ∀ (pre rest : List DirEntry), (∀ e ∈ pre, e.name ≠ name) →
      lookup_go inodes name (pre ++ rest) = lookup_go inodes name rest := by
  intro pre
  induction pre with
  | nil => intro rest _; rfl
  | cons e pre' ih =>
    intro rest hne
    rw [List.cons_append, lookup_go_cons, if_neg (hne e (List.mem_cons_self _ _))]
    exact ih rest (fun x hx => hne x (List.mem_cons_of_mem _ hx))

private theorem lookup_go_none (inodes : List (Nat × Inode)) (name : List Nat) :
    ∀ (l : List DirEntry), (∀ e ∈ l, e.name ≠ name) →
      lookup_go inodes name l = .error ENOENT := by
  intro l
  induction l with
  | nil => intro _; rfl
  | cons e l' ih =>
    intro hne
    rw [lookup_go_cons, if_neg (hne e (List.mem_cons_self _ _))]
    exact ih (fun x hx => hne x (List.mem_cons_of_mem _ hx))

private theorem findIdx_name_append_go (name : List Nat) :
    ∀ (pre : List DirEntry) (e : DirEntry) (post : List DirEntry) (i : Nat),
      (∀ x ∈ pre, x.name ≠ name) → e.name = name →
      List.findIdx? (fun x => x.name == name) (pre ++ e :: post) i = some (i + pre.length) := by
  intro pre
  induction pre with
  | nil =>
    intro e post i _ he
    rw [List.nil_append, List.findIdx?_cons, if_pos (by simpa using he)]
    rfl
  | cons x pre' ih =>
    intro e post i hne he
    have hx : (x.name == name) = false := by
      simpa using hne x (List.mem_cons_self _ _)
    rw [List.cons_append, List.findIdx?_cons, hx]
    rw [if_neg (by simp)]
    rw [ih e post (i + 1) (fun y hy => hne y (List.mem_cons_of_mem _ hy)) he]
    rw [List.length_cons]
    congr 1
    omega

private theorem findIdx_name_append (name : List Nat)
    (pre : List DirEntry) (e : DirEntry) (post : List DirEntry)
    (hne : ∀ x ∈ pre, x.name ≠ name) (he : e.name = name) :
    (pre ++ e :: post).findIdx? (fun x => x.name == name) = some pre.length := by
  rw [show (pre ++ e :: post).findIdx? (fun x => x.name == name) =
      List.findIdx? (fun x => x.name == name) (pre ++ e :: post) 0 from rfl,
    findIdx_name_append_go name pre e post 0 hne he, Nat.zero_add]

private theorem eraseIdx_append_middle :
    ∀ (pre : List DirEntry) (e : DirEntry) (post : List DirEntry),
      (pre ++ e :: post).eraseIdx pre.length = pre ++ post := by
  intro pre
  induction pre with
  | nil => intro e post; rfl
  | cons x pre' ih =>
    intro e post
    show ((x :: (pre' ++ e :: post)).eraseIdx (pre'.length + 1)) = _
    rw [List.eraseIdx_cons_succ, ih e post]
    rfl

private theorem getD_append_middle :
    ∀ (pre : List DirEntry) (e : DirEntry) (post : List DirEntry) (d : DirEntry),
      (pre ++ e :: post).getD pre.length d = e := by
  intro pre
  induction pre with
  | nil => intro e post d; rfl
  | cons x pre' ih =>
    intro e post d
    show (x :: (pre' ++ e :: post)).getD (pre'.length + 1) d = e
    rw [List.getD_cons_succ, ih e post d]

theorem freshIdGo_ge (inodes : List (Nat × Inode)) :
    ∀ (fuel n : Nat), n ≤ freshIdGo inodes fuel n := by
  intro fuel
  induction fuel with
  | zero => intro n; exact le_rfl
  | succ m ih =>
    intro n
    unfold freshIdGo
    by_cases h : (List.lookup n inodes).isSome
    · rw [if_pos h]
      exact le_trans (by omega) (ih (n + 1))
    · rw [if_neg h]

theorem freshIdGo_le (inodes : List (Nat × Inode)) :
    ∀ (fuel n : Nat), freshIdGo inodes fuel n ≤ n + fuel := by
  intro fuel
  induction fuel with
  | zero => intro n; exact le_rfl
  | succ m ih =>
    intro n
    unfold freshIdGo
    by_cases h : (List.lookup n inodes).isSome
    · rw [if_pos h]
      exact le_trans (ih (n + 1)) (by omega)
    · rw [if_neg h]
      omega

theorem clear_blocks_WF : ∀ (l : List Nat) (bm : Bitmap), bm.WF → (clear_blocks bm l).WF := by
  intro l
  induction l with
  | nil => intro bm h; exact h
  | cons hd tl ih =>
    intro bm h
    unfold clear_blocks
    by_cases hz : hd ≠ 0
    · rw [if_pos hz]
      exact ih _ (Bitmap.WF_set _ _ _ h)
    · rw [if_neg hz]
      exact ih _ h

private theorem clear_blocks_false_preserved :
    ∀ (l : List Nat) (bm : Bitmap) (x : Nat), bm.WF → bm.get x = false →
      (clear_blocks bm l).get x = false := by
  intro l
  induction l with
  | nil => intro bm x _ h; exact h
  | cons hd tl ih =>
    intro bm x hwf h
    unfold clear_blocks
    by_cases hz : hd ≠ 0
    · rw [if_pos hz]
      refine ih _ x (Bitmap.WF_set _ _ _ hwf) ?_
      rw [Bitmap.get_set bm hwf hd x false]
      split
      · rfl
      · exact h
    · rw [if_neg hz]
      exact ih bm x hwf h

/-- The state-level postcondition of a successful `write_inode_data`, used by
the directory-coherence proof: the superblock is unchanged, the bitmap stays
well-formed, and the cache maps the inode to a record whose data reads back
as the payload and whose blocks avoid the metadata blocks. -/
theorem write_inode_data_post (s : FSState) (ino : Nat) (inode : Inode) (D : List Nat)
    (now : Nat) (s' : FSState) (tr : List PEvent)
    (hino : List.lookup ino s.inodes = some inode)
    (hwfbm : s.bitmap.WF)
    (hb0 : s.bitmap.get 0 = true)
    (hbs : s.bitmap.get s.sb.bitmap_start = true)
    (hits : s.bitmap.get s.sb.inode_table_start = true)
    (hdb_len : inode.direct_blocks.length = DIRECT_POINTERS)
    (hdb_ok : ∀ i, inode.direct_blocks.getD i 0 ≠ 0 →
      s.bitmap.get (inode.direct_blocks.getD i 0) = true ∧
      inode.direct_blocks.getD i 0 ≠ s.sb.bitmap_start ∧
      inode.direct_blocks.getD i 0 ≠ s.sb.inode_table_start)
    (hdb_nodup : ∀ i j, i ≠ j → inode.direct_blocks.getD i 0 ≠ 0 →
      inode.direct_blocks.getD i 0 ≠ inode.direct_blocks.getD j 0)
    (hwrite : write_inode_data s ino D now = .ok (s', tr)) :
    s'.sb = s.sb ∧ s'.bitmap.WF ∧
    ∃ inode', s'.inodes = cacheInsert ino inode' s.inodes ∧
      inode'.size = D.length ∧ inode'.direct_blocks.length = DIRECT_POINTERS ∧
      (∀ i, inode'.direct_blocks.getD i 0 ≠ 0 →
        inode'.direct_blocks.getD i 0 ≠ s.sb.bitmap_start ∧
        inode'.direct_blocks.getD i 0 ≠ s.sb.inode_table_start) ∧
      read_inode_data s' inode' = D := by
  unfold write_inode_data at hwrite
  rw [hino] at hwrite
  dsimp only at hwrite
  rcases hwc : write_chunks s.sb.bitmap_start s.bitmap s.store inode.direct_blocks 0
      (chunks900 D) [] with e | ⟨bm1, st1, db1, ptr, tr1⟩
  · rw [hwc] at hwrite
    exact absurd hwrite (by simp)
  · rw [hwc] at hwrite
    dsimp only at hwrite
    simp only [Except.ok.injEq, Prod.mk.injEq] at hwrite
    obtain ⟨rfl, rfl⟩ := hwrite
    have post := write_chunks_spec s.sb.bitmap_start s.sb.inode_table_start (chunks900 D)
      s.bitmap s.store inode.direct_blocks 0 [] bm1 st1 db1 ptr tr1 hwc hwfbm hdb_len
      hb0 hbs hits (fun i _ hne => hdb_ok i hne)
      (fun i j _ _ hij hne => hdb_nodup i j hij hne)
    obtain ⟨ft1, ft2, ft3, ft4⟩ :=
      free_trailing_spec (DIRECT_POINTERS - (ptr + 1)) bm1 db1 (ptr + 1)
    have hn : ptr = (chunks900 D).length := by
      have := post.hptr
      omega
    have hple : ptr ≤ DIRECT_POINTERS := post.hple (Nat.zero_le _)
    have hlen1 : db1.length = DIRECT_POINTERS := by
      rw [post.hlen, hdb_len]
    refine ⟨rfl, ft4 post.hwf, _, rfl, rfl, ?_, ?_, ?_⟩
    · rw [ft1, hlen1]
    · -- non-zero slots of the new record avoid bitmap_start / inode_table_start
      intro i hne
      have hilen : i < DIRECT_POINTERS := by
        have := getD_pos_lt _ _ hne
        rw [ft1, hlen1] at this
        exact this
      by_cases hip : i < ptr
      · have hkeep : (free_trailing bm1 db1 (ptr + 1)
            (DIRECT_POINTERS - (ptr + 1))).2.getD i 0 = db1.getD i 0 := ft2 i (by omega)
        have hs := post.hslot i (by omega)
        simp only [Nat.zero_add] at hs
        rw [hkeep]
        rw [hkeep] at hne
        exact ⟨hs.2.2.1, hs.2.2.2.1⟩
      · by_cases hiq : i = ptr
        · have hkeep : (free_trailing bm1 db1 (ptr + 1)
              (DIRECT_POINTERS - (ptr + 1))).2.getD i 0 = db1.getD i 0 := ft2 i (by omega)
          have hkeep2 : db1.getD i 0 = inode.direct_blocks.getD i 0 :=
            post.huntouched i (Or.inr (by omega))
          rw [hkeep, hkeep2]
          rw [hkeep, hkeep2] at hne
          exact ⟨(hdb_ok i hne).2.1, (hdb_ok i hne).2.2⟩
        · have : (free_trailing bm1 db1 (ptr + 1)
              (DIRECT_POINTERS - (ptr + 1))).2.getD i 0 = 0 :=
            ft3 i (by omega) hilen (by omega)
          exact absurd this hne
    · -- the data reads back
      have hslots2 : ∀ k, k < (chunks900 D).length →
          (free_trailing bm1 db1 (ptr + 1) (DIRECT_POINTERS - (ptr + 1))).2.getD k 0 ≠ 0 ∧
          storeGet (storeSet
              (storeSet st1 s.sb.bitmap_start
                (bincode_bitmap (free_trailing bm1 db1 (ptr + 1)
                  (DIRECT_POINTERS - (ptr + 1))).1))
              s.sb.inode_table_start
              (bincode_inode_table (sync_inode_list
                (cacheInsert ino
                  { mode := inode.mode, size := D.length, file_type := inode.file_type,
                    created_at := inode.created_at, modified_at := now,
                    direct_blocks := (free_trailing bm1 db1 (ptr + 1)
                      (DIRECT_POINTERS - (ptr + 1))).2,
                    indirect_block := inode.indirect_block } s.inodes)
                ino
                { mode := inode.mode, size := D.length, file_type := inode.file_type,
                  created_at := inode.created_at, modified_at := now,
                  direct_blocks := (free_trailing bm1 db1 (ptr + 1)
                    (DIRECT_POINTERS - (ptr + 1))).2,
                  indirect_block := inode.indirect_block })))
            ((free_trailing bm1 db1 (ptr + 1) (DIRECT_POINTERS - (ptr + 1))).2.getD k 0) =
            some ((chunks900 D).getD k []) := by
        intro k hk
        have hkeep : (free_trailing bm1 db1 (ptr + 1)
            (DIRECT_POINTERS - (ptr + 1))).2.getD k 0 = db1.getD k 0 := ft2 k (by omega)
        have hs := post.hslot k hk
        simp only [Nat.zero_add] at hs
        obtain ⟨h1, h2, h3, h4, h5⟩ := hs
        refine ⟨by rw [hkeep]; exact h1, ?_⟩
        rw [hkeep, storeGet_storeSet, if_neg h4, storeGet_storeSet, if_neg h3]
        exact h5
      have hgo := read_go_chunks _ (chunks900 D)
        (free_trailing bm1 db1 (ptr + 1) (DIRECT_POINTERS - (ptr + 1))).2
        (by rw [ft1]; omega) hslots2
      unfold read_inode_data
      dsimp only
      rw [hgo, chunks900_flatten]
      set tail2 := read_inode_data_go _
        ((free_trailing bm1 db1 (ptr + 1) (DIRECT_POINTERS - (ptr + 1))).2.drop
          (chunks900 D).length) with htail2
      by_cases hT : (D ++ tail2).length > D.length
      · rw [if_pos hT, List.take_left' rfl]
      · rw [if_neg hT]
        have hta : tail2.length = 0 := by
          simp only [List.length_append] at hT
          omega
        rw [List.length_eq_zero] at hta
        rw [hta, List.append_nil]

theorem clear_blocks_get_false :
    ∀ (l : List Nat) (bm : Bitmap) (x : Nat), bm.WF → x ∈ l → x ≠ 0 →
      (clear_blocks bm l).get x = false := by
  intro l
  induction l with
  | nil => intro bm x _ h _; exact absurd h (List.not_mem_nil x)
  | cons hd tl ih =>
    intro bm x hwf hmem hxz
    unfold clear_blocks
    rcases List.mem_cons.1 hmem with rfl | hmem'
    · rw [if_pos hxz]
      apply clear_blocks_false_preserved tl _ x (Bitmap.WF_set _ _ _ hwf)
      rw [Bitmap.get_set bm hwf x x false]
      by_cases hlt : x < bm.size
      · rw [if_pos ⟨rfl, hlt⟩]
      · rw [if_neg (by omega)]
        unfold Bitmap.get
        rw [if_pos (by omega)]
    · by_cases hz : hd ≠ 0
      · rw [if_pos hz]
        exact ih _ x (Bitmap.WF_set _ _ _ hwf) hmem' hxz
      · rw [if_neg hz]
        exact ih bm x hwf hmem' hxz

private theorem any_name_false (name : List Nat) :
    ∀ (l : List DirEntry), (∀ e ∈ l, e.name ≠ name) →
      l.any (fun e => e.name == name) = false := by
  intro l
  induction l with
  | nil => intro _; rfl
  | cons e l' ih =>
    intro h
    rw [List.any_cons]
    have h1 : (e.name == name) = false := by
      simpa using h e (List.mem_cons_self _ _)
    rw [h1, Bool.false_or]
    exact ih (fun x hx => h x (List.mem_cons_of_mem _ hx))

/-- The zeroed record `free_inode_resources` writes for the removed inode. -/
def vzero (i : Inode) : Inode :=
  { mode := 0, size := 0, file_type := i.file_type, created_at := i.created_at,
    modified_at := i.modified_at, direct_blocks := List.replicate DIRECT_POINTERS 0,
    indirect_block := i.indirect_block }

/-- C6: directory coherence in the root directory.  Create part: under the
volume invariants (root cached, bitmap well-formed, metadata and root's blocks
marked and non-aliased, root's data decoding to entries none of which bears the
new name, bincode-size bounds), a successful `create(1, name)` makes
`lookup(1, name)` return exactly the created `(index, inode)` pair.  Unlink
part: when the root directory holds exactly one entry with the given name and
its inode is cached, a successful `unlink(1, name)` makes `lookup(1, name)`
fail with ENOENT and clears the bitmap bit of every non-zero direct block of
the unlinked inode. -/
theorem C6_create_lookup_unlink :
    (∀ (s : FSState) (name : List Nat) (mode now newId : Nat) (newIno : Inode)
        (s3 : FSState) (tr : List PEvent) (root : Inode) (entries0 : List DirEntry),
      List.lookup 1 s.inodes = some root →
      s.bitmap.WF →
      s.bitmap.get 0 = true →
      s.bitmap.get s.sb.bitmap_start = true →
      s.bitmap.get s.sb.inode_table_start = true →
      root.direct_blocks.length = DIRECT_POINTERS →
      (∀ i, root.direct_blocks.getD i 0 ≠ 0 →
        s.bitmap.get (root.direct_blocks.getD i 0) = true ∧
        root.direct_blocks.getD i 0 ≠ s.sb.bitmap_start ∧
        root.direct_blocks.getD i 0 ≠ s.sb.inode_table_start) →
      (∀ i j, i ≠ j → root.direct_blocks.getD i 0 ≠ 0 →
        root.direct_blocks.getD i 0 ≠ root.direct_blocks.getD j 0) →
      read_inode_data s root = encodeEntries entries0 →
      (∀ e ∈ entries0, e.name ≠ name) →
      EntriesWF entries0 →
      name.length < 2 ^ 64 →
      entries0.length + 1 < 2 ^ 64 →
      s.inodes.length + 3 < 2 ^ 64 →
      create_op s 1 name mode now = .ok (newId, newIno, s3, tr) →
      lookup_op s3 1 name = .ok (newId, newIno)) ∧
    (∀ (s : FSState) (name : List Nat) (now vidx : Nat) (victim root : Inode)
        (s'' : FSState) (tr : List PEvent) (pre post : List DirEntry),
      List.lookup 1 s.inodes = some root →
      s.bitmap.WF →
      s.bitmap.get 0 = true →
      s.bitmap.get s.sb.bitmap_start = true →
      s.bitmap.get s.sb.inode_table_start = true →
      root.direct_blocks.length = DIRECT_POINTERS →
      (∀ i, root.direct_blocks.getD i 0 ≠ 0 →
        s.bitmap.get (root.direct_blocks.getD i 0) = true ∧
        root.direct_blocks.getD i 0 ≠ s.sb.bitmap_start ∧
        root.direct_blocks.getD i 0 ≠ s.sb.inode_table_start) →
      (∀ i j, i ≠ j → root.direct_blocks.getD i 0 ≠ 0 →
        root.direct_blocks.getD i 0 ≠ root.direct_blocks.getD j 0) →
      read_inode_data s root = encodeEntries (pre ++ ⟨vidx, name⟩ :: post) →
      (∀ e ∈ pre, e.name ≠ name) →
      (∀ e ∈ post, e.name ≠ name) →
      EntriesWF (pre ++ ⟨vidx, name⟩ :: post) →
      vidx ≠ 1 →
      List.lookup vidx s.inodes = some victim →
      unlink_op s 1 name now = .ok (s'', tr) →
      lookup_op s'' 1 name = .error ENOENT ∧
      ∀ b ∈ victim.direct_blocks, b ≠ 0 → s''.bitmap.get b = false) := by
  constructor
  · -- create then lookup
    intro s name mode now newId newIno s3 tr root entries0 hroot hwfbm hb0 hbs hits
      hdb_len hdb_ok hdb_nodup hrootdata hfresh hwf0 hnamelen hcount hcache hcreate
    unfold create_op at hcreate
    rw [if_neg (by decide : ¬(1 : Nat) ≠ 1)] at hcreate
    dsimp only at hcreate
    set nid := freshIdGo s.inodes (s.inodes.length + 1) 2 with hnid
    set nIno := Inode.new .file mode now with hnIno
    set sMid := sync_inode { s with inodes := cacheInsert nid nIno s.inodes } nid nIno
      with hsMid
    have hge := freshIdGo_ge s.inodes (s.inodes.length + 1) 2
    have hle := freshIdGo_le s.inodes (s.inodes.length + 1) 2
    rw [← hnid] at hge hle
    have hnid1 : nid ≠ 1 := by omega
    have hnidlt : nid < 2 ^ 64 := by omega
    have hsMid_inodes : sMid.inodes = cacheInsert nid nIno s.inodes := by
      rw [hsMid]; rfl
    have hsMid_sb : sMid.sb = s.sb := by
      rw [hsMid]; rfl
    have hsMid_bm : sMid.bitmap = s.bitmap := by
      rw [hsMid]; rfl
    have hsMid_store : sMid.store = storeSet s.store s.sb.inode_table_start
        (bincode_inode_table (sync_inode_list (cacheInsert nid nIno s.inodes) nid nIno)) := by
      rw [hsMid]; rfl
    have hlook1 : List.lookup 1 sMid.inodes = some root := by
      rw [hsMid_inodes, lookup_cacheInsert, if_neg (by omega : ¬(1 : Nat) = nid)]
      exact hroot
    have hneM : ∀ bid ∈ root.direct_blocks, bid ≠ 0 → bid ≠ s.sb.inode_table_start := by
      intro bid hb hbz
      obtain ⟨k, hk, hgd⟩ := mem_getD_of_mem _ bid hb
      have := (hdb_ok k (by rw [hgd]; exact hbz)).2.2
      rw [hgd] at this
      exact this
    have hreadM : read_inode_data sMid root = encodeEntries entries0 := by
      rw [← hrootdata]
      unfold read_inode_data
      dsimp only
      rw [hsMid_store, read_go_frame _ _ _ _ hneM]
    have hrde : read_dir_entries sMid 1 = .ok entries0 := by
      unfold read_dir_entries
      rw [if_neg (by decide : ¬(1 : Nat) ≠ 1), hlook1]
      dsimp only
      rw [hreadM, if_neg (encodeEntries_ne_nil entries0),
        decodeEntries_encode entries0 hwf0]
    rcases hadd : add_dir_entry sMid name nid now with e | ⟨s3', tr'⟩ <;>
      rw [hadd] at hcreate
    · exact absurd hcreate (by simp)
    unfold add_dir_entry at hadd
    rw [hrde] at hadd
    dsimp only at hadd
    rw [any_name_false name entries0 hfresh,
      if_neg (by decide : ¬(false = true))] at hadd
    dsimp only at hcreate
    simp only [Except.ok.injEq, Prod.mk.injEq] at hcreate
    obtain ⟨rfl, rfl, rfl, rfl⟩ := hcreate
    have hwfApp : EntriesWF (entries0 ++ [⟨nid, name⟩]) := by
      constructor
      · rw [List.length_append]
        simpa using hcount
      · intro e he
        rcases List.mem_append.1 he with h | h
        · exact hwf0.2 e h
        · rcases List.mem_singleton.1 h with rfl
          exact ⟨hnidlt, hnamelen⟩
    have hadd2 : write_inode_data sMid 1 (encodeEntries (entries0 ++ [⟨nid, name⟩])) now
        = Except.ok (s3', tr') := hadd
    have hpost :=
      write_inode_data_post sMid 1 root (encodeEntries (entries0 ++ [⟨nid, name⟩])) now
        s3' tr' hlook1
    obtain ⟨hsb3, hwf3, root', hin3, hsz3, hlen3, hnm3, hrd3⟩ :=
      hpost (by rw [hsMid_bm]; exact hwfbm) (by rw [hsMid_bm]; exact hb0)
        (by rw [hsMid_bm, hsMid_sb]; exact hbs) (by rw [hsMid_bm, hsMid_sb]; exact hits)
        hdb_len (by rw [hsMid_bm, hsMid_sb]; exact hdb_ok) hdb_nodup hadd2
    have hrde3 : read_dir_entries s3' 1 = .ok (entries0 ++ [⟨nid, name⟩]) := by
      unfold read_dir_entries
      rw [if_neg (by decide : ¬(1 : Nat) ≠ 1), hin3, lookup_cacheInsert, if_pos rfl]
      dsimp only
      rw [hrd3, if_neg (encodeEntries_ne_nil _), decodeEntries_encode _ hwfApp]
    have hlooknid : List.lookup nid s3'.inodes = some nIno := by
      rw [hin3, lookup_cacheInsert, if_neg (by omega : ¬nid = 1), hsMid_inodes,
        lookup_cacheInsert, if_pos rfl]
    unfold lookup_op
    rw [if_neg (by decide : ¬(1 : Nat) ≠ 1), hrde3]
    dsimp only
    rw [lookup_go_skip s3'.inodes name entries0 [⟨nid, name⟩] hfresh,
      lookup_go_cons, if_pos rfl]
    dsimp only
    rw [hlooknid]
  · -- unlink then lookup
    intro s name now vidx victim root s'' tr pre post hroot hwfbm hb0 hbs hits
      hdb_len hdb_ok hdb_nodup hdata hpre hpost hwfL hv1 hvict hunlink
    have hrdeS : read_dir_entries s 1 = .ok (pre ++ ⟨vidx, name⟩ :: post) := by
      unfold read_dir_entries
      rw [if_neg (by decide : ¬(1 : Nat) ≠ 1), hroot]
      dsimp only
      rw [hdata, if_neg (encodeEntries_ne_nil _), decodeEntries_encode _ hwfL]
    unfold unlink_op at hunlink
    rw [if_neg (by decide : ¬(1 : Nat) ≠ 1)] at hunlink
    unfold remove_dir_entry at hunlink
    rw [hrdeS] at hunlink
    dsimp only at hunlink
    rw [findIdx_name_append name pre ⟨vidx, name⟩ post hpre rfl] at hunlink
    dsimp only at hunlink
    rw [getD_append_middle, eraseIdx_append_middle] at hunlink
    dsimp only at hunlink
    rcases hw : write_inode_data s 1 (encodeEntries (pre ++ post)) now with e | ⟨s', tr1⟩ <;>
      rw [hw] at hunlink
    · exact absurd hunlink (by simp)
    dsimp only at hunlink
    simp only [Except.ok.injEq, Prod.mk.injEq] at hunlink
    obtain ⟨rfl, rfl⟩ := hunlink
    obtain ⟨hsb', hwf', root', hin', hrsz', hrlen', hnm', hrd'⟩ :=
      write_inode_data_post s 1 root (encodeEntries (pre ++ post)) now s' tr1
        hroot hwfbm hb0 hbs hits hdb_len hdb_ok hdb_nodup hw
    have hlookv : List.lookup vidx s'.inodes = some victim := by
      rw [hin', lookup_cacheInsert, if_neg (by omega : ¬vidx = 1)]
      exact hvict
    have hfr : free_inode_resources s' vidx =
        ({ sb := s'.sb,
           bitmap := clear_blocks s'.bitmap victim.direct_blocks,
           store := storeSet
               (storeSet s'.store s'.sb.bitmap_start
                 (bincode_bitmap (clear_blocks s'.bitmap victim.direct_blocks)))
               s'.sb.inode_table_start
               (bincode_inode_table (sync_inode_list
                 (cacheInsert vidx (vzero victim) s'.inodes) vidx (vzero victim))),
           inodes := cacheRemove vidx (cacheInsert vidx (vzero victim) s'.inodes) },
         [PEvent.pbm (clear_blocks s'.bitmap victim.direct_blocks),
          PEvent.ptbl vidx (vzero victim)]) := by
      unfold free_inode_resources
      rw [hlookv]; rfl
    rw [hfr]
    dsimp only
    constructor
    · -- lookup now fails
      have hwfPP : EntriesWF (pre ++ post) := by
        obtain ⟨hl, he⟩ := hwfL
        constructor
        · rw [List.length_append] at hl ⊢
          simp only [List.length_cons] at hl
          omega
        · intro e hee
          rcases List.mem_append.1 hee with h | h
          · exact he e (List.mem_append.2 (Or.inl h))
          · exact he e (List.mem_append.2 (Or.inr (List.mem_cons_of_mem _ h)))
      have hall : ∀ e ∈ pre ++ post, e.name ≠ name := by
        intro e hee
        rcases List.mem_append.1 hee with h | h
        · exact hpre e h
        · exact hpost e h
      have hnmB : ∀ bid ∈ root'.direct_blocks, bid ≠ 0 →
          bid ≠ s.sb.bitmap_start ∧ bid ≠ s.sb.inode_table_start := by
        intro bid hb hbz
        obtain ⟨k, hk, hgd⟩ := mem_getD_of_mem _ bid hb
        have := hnm' k (by rw [hgd]; exact hbz)
        rw [hgd] at this
        exact this
      unfold lookup_op
      rw [if_neg (by decide : ¬(1 : Nat) ≠ 1)]
      unfold read_dir_entries
      rw [if_neg (by decide : ¬(1 : Nat) ≠ 1)]
      dsimp only
      have hlookr : List.lookup 1 s'.inodes = some root' := by
        rw [hin', lookup_cacheInsert, if_pos rfl]
      rw [lookup_cacheRemove, if_neg (by omega : ¬(1 : Nat) = vidx),
        lookup_cacheInsert, if_neg (by omega : ¬(1 : Nat) = vidx), hlookr]
      dsimp only
      have hreadB : read_inode_data
          { sb := s'.sb,
            bitmap := clear_blocks s'.bitmap victim.direct_blocks,
            store := storeSet
                (storeSet s'.store s'.sb.bitmap_start
                  (bincode_bitmap (clear_blocks s'.bitmap victim.direct_blocks)))
                s'.sb.inode_table_start
                (bincode_inode_table (sync_inode_list
                  (cacheInsert vidx (vzero victim) s'.inodes) vidx (vzero victim))),
            inodes := cacheRemove vidx (cacheInsert vidx (vzero victim) s'.inodes) }
          root' = encodeEntries (pre ++ post) := by
        rw [← hrd']
        unfold read_inode_data
        dsimp only
        rw [hsb', read_go_frame _ _ _ _
            (fun bid hb hbz => (hnmB bid hb hbz).2),
          read_go_frame _ _ _ _
            (fun bid hb hbz => (hnmB bid hb hbz).1)]
      rw [hreadB, if_neg (encodeEntries_ne_nil _), decodeEntries_encode _ hwfPP]
      dsimp only
      rw [lookup_go_none _ _ _ hall]
    · -- the victim's blocks are unallocated
      intro b hb hbz
      exact clear_blocks_get_false victim.direct_blocks s'.bitmap b hwf' hb hbz

private theorem db3_getD :
    ∀ i, i ≠ 0 → (3 :: List.replicate 11 0 : List Nat).getD i 0 = 0 := by
  intro i hi
  match i with
  | 0 => exact absurd rfl hi
  | n + 1 =>
    rw [List.getD_cons_succ]
    simp only [List.getD_eq_getElem?_getD, List.getElem?_replicate]
    split <;> rfl

private theorem db3_hyps (bm : Bitmap) (bs its : Nat)
    (h3 : bm.get 3 = true) (h31 : (3 : Nat) ≠ bs) (h32 : (3 : Nat) ≠ its) :
    (∀ i, (3 :: List.replicate 11 0 : List Nat).getD i 0 ≠ 0 →
      bm.get ((3 :: List.replicate 11 0 : List Nat).getD i 0) = true ∧
      (3 :: List.replicate 11 0 : List Nat).getD i 0 ≠ bs ∧
      (3 :: List.replicate 11 0 : List Nat).getD i 0 ≠ its) ∧
    (∀ i j, i ≠ j → (3 :: List.replicate 11 0 : List Nat).getD i 0 ≠ 0 →
      (3 :: List.replicate 11 0 : List Nat).getD i 0 ≠
        (3 :: List.replicate 11 0 : List Nat).getD j 0) := by
  constructor
  · intro i hi
    by_cases h : i = 0
    · subst h
      exact ⟨h3, h31, h32⟩
    · exact absurd (db3_getD i h) hi
  · intro i j hij hi
    by_cases h : i = 0
    · subst h
      rw [db3_getD j (Ne.symm hij)]
      decide
    · exact absurd (db3_getD i h) hi

/-- The root inode of the concrete create-witness volume: an empty directory
(8 bytes of encoded empty entry list) in block 3. -/
def rootW : Inode :=
  { mode := 493, size := 8, file_type := .directory, created_at := 0, modified_at := 0,
    direct_blocks := 3 :: List.replicate 11 0, indirect_block := 0 }

/-- Concrete create-witness volume: blocks 0–3 allocated, root cached. -/
def s6C : FSState :=
  { sb := sbC, bitmap := ⟨[15], 8⟩, store := [(3, encodeEntries [])],
    inodes := [(1, rootW)] }

def s63C : FSState :=
  match create_op s6C 1 [97] 420 0 with
  | .ok (_, _, s3, _) => s3
  | .error _ => s6C

def tr63C : List PEvent :=
  match create_op s6C 1 [97] 420 0 with
  | .ok (_, _, _, tr) => tr
  | .error _ => []

/-- The root inode of the concrete unlink-witness volume: one entry
`(2, [97])`, 25 encoded bytes in block 3. -/
def rootU : Inode :=
  { mode := 493, size := 25, file_type := .directory, created_at := 0, modified_at := 0,
    direct_blocks := 3 :: List.replicate 11 0, indirect_block := 0 }

/-- The victim inode of the unlink witness: one data byte in block 4. -/
def vicU : Inode :=
  { mode := 420, size := 1, file_type := .file, created_at := 0, modified_at := 0,
    direct_blocks := 4 :: List.replicate 11 0, indirect_block := 0 }

/-- Concrete unlink-witness volume: blocks 0–4 allocated, root and victim cached. -/
def s6U : FSState :=
  { sb := sbC, bitmap := ⟨[31], 8⟩,
    store := [(3, encodeEntries [⟨2, [97]⟩]), (4, [7])],
    inodes := [(1, rootU), (2, vicU)] }

def s6UresS : FSState :=
  match unlink_op s6U 1 [97] 0 with
  | .ok (s2, _) => s2
  | .error _ => s6U

def tr6U : List PEvent :=
  match unlink_op s6U 1 [97] 0 with
  | .ok (_, tr) => tr
  | .error _ => []

/-- Witness for C6: on a concrete volume with an empty root directory,
creating the name `[97]` yields inode 2 and the subsequent lookup returns it;
on a concrete volume whose root directory holds exactly the entry `(2, [97])`
backed by an inode owning block 4, unlinking the name makes the lookup fail
with ENOENT and clears block 4's bitmap bit. -/
theorem C6_create_lookup_unlink_witness :
    lookup_op s63C 1 [97] = .ok (2, Inode.new .file 420 0) ∧
    lookup_op s6UresS 1 [97] = .error ENOENT ∧
    ∀ b ∈ vicU.direct_blocks, b ≠ 0 → s6UresS.bitmap.get b = false := by
  refine ⟨?_, ?_⟩
  · exact C6_create_lookup_unlink.1 s6C [97] 420 0 2 (Inode.new .file 420 0) s63C tr63C
      rootW []
      (by rfl) (by decide) (by decide) (by decide) (by decide) (by decide)
      (db3_hyps s6C.bitmap s6C.sb.bitmap_start s6C.sb.inode_table_start
        (by decide) (by decide) (by decide)).1
      (db3_hyps s6C.bitmap s6C.sb.bitmap_start s6C.sb.inode_table_start
        (by decide) (by decide) (by decide)).2
      (by rfl) (fun e he => absurd he (List.not_mem_nil e))
      ⟨by decide, fun e he => absurd he (List.not_mem_nil e)⟩
      (by decide) (by decide) (by decide) (by rfl)
  · exact C6_create_lookup_unlink.2 s6U [97] 0 2 vicU rootU s6UresS tr6U [] []
      (by rfl) (by decide) (by decide) (by decide) (by decide) (by decide)
      (db3_hyps s6U.bitmap s6U.sb.bitmap_start s6U.sb.inode_table_start
        (by decide) (by decide) (by decide)).1
      (db3_hyps s6U.bitmap s6U.sb.bitmap_start s6U.sb.inode_table_start
        (by decide) (by decide) (by decide)).2
      (by rfl) (fun e he => absurd he (List.not_mem_nil e))
      (fun e he => absurd he (List.not_mem_nil e))
      ⟨by decide, by
        intro e he
        rcases List.mem_singleton.1 he with rfl
        exact ⟨by decide, by decide⟩⟩
      (by decide) (by rfl) (by rfl)

end QRFS
